import Mathlib

/-!
Verification development for the DSM/DSA data-pipeline scripts.

The embedding models the incremental master-table merge of
`process_dataframe` (dsm-data.py, lines 631-716), the change-tracking
ledger (`load_file_tracking` / `scheduled_update` in dsm-data.py and
`load_file_tracking` / `check_for_changes` / `download_and_process_file`
in ERLDC/scripts/erpc_extractor.py), and the column-name cleaner
(dsm-data.py lines 100-101 and 597-598).

Cell values are modelled as strings, integers or missing (pandas `NaN`);
floating-point cells are outside the scope of the embedding.  A pandas
row is a rectangular mapping from column names to cells: we model it as
an association list, where a column absent from a row reads as the
missing value (exactly what pandas materialises when `concat` extends a
frame with new columns).  Python `str()` on a cell is `Val.render`
(`str()` of `NaN` is "nan").  Fallible pandas operations (`KeyError`
from `drop_duplicates` on absent columns, `IndexError` from `iloc[0]` on
an empty row or from `key_columns[0]` on an empty key list) are modelled
with `Option`.
-/

namespace DSM

/-- Scalar cell value of a spreadsheet/DataFrame: string, integer, or
missing (pandas `NaN`). -/
inductive Val where
  | vstr : String → Val
  | vint : Int → Val
  | vnone : Val
deriving DecidableEq, Repr

/-- Python `str()` applied to a cell: strings render as themselves,
integers via decimal notation, and `str(nan)` is `"nan"`. -/
def Val.render : Val → String
  | .vstr s => s
  | .vint n => toString n
  | .vnone => "nan"

abbrev Col := String

abbrev Row := List (Col × Val)

/-- Association-list lookup (first binding wins), used for rows and for
the tracking ledger. -/
def assocFind {β : Type} : List (String × β) → String → Option β
  | [], _ => none
  | p :: ps, c => if p.1 = c then some p.2 else assocFind ps c

/-- Association-list update: replace the binding if the key is present,
otherwise append it (Python dict / pandas column-assignment semantics,
which preserve insertion order). -/
def assocSet {β : Type} (l : List (String × β)) (k : String) (v : β) :
    List (String × β) :=
  if (assocFind l k).isSome then
    l.map (fun p => if p.1 = k then (k, v) else p)
  else l ++ [(k, v)]

/-- Reading a cell of a row: a column with no binding reads as `NaN`
(pandas fills missing columns of a rectangular frame with `NaN`). -/
def Row.getV (r : Row) (c : Col) : Val := (assocFind r c).getD Val.vnone

/-- Writing a cell of a row. -/
def Row.setV (r : Row) (c : Col) (v : Val) : Row := assocSet r c v

/-- Table: ordered column list plus ordered row list, mirroring a pandas
DataFrame. -/
structure Table where
  cols : List Col
  rows : List Row
deriving DecidableEq, Repr

/-- Key-column resolution of `process_dataframe` (dsm-data.py lines
644-652): `Stn_Name`+`Stn_DC_Date` if both present, else `Date` if
present, else all columns of the batch. -/
def determine_key_columns (cols : List Col) : List Col :=
  if cols.contains "Stn_Name" ∧ cols.contains "Stn_DC_Date" then
    ["Stn_Name", "Stn_DC_Date"]
  else if cols.contains "Date" then ["Date"]
  else cols

/-- Raw (untyped-comparison) key of a row: the cell values at the key
columns, as used by `drop_duplicates(subset=key_columns)`. -/
def keyVals (keyCols : List Col) (r : Row) : List Val :=
  keyCols.map (fun c => r.getV c)

/-- String-rendered key of a row, the comparison basis of the merge
lookup after `astype(str)` / `str()` coercion. -/
def keyStrings (keyCols : List Col) (r : Row) : List String :=
  keyCols.map (fun c => (r.getV c).render)

/-- The `drop_duplicates(subset=key_columns, keep="last")` of
dsm-data.py line 656: keep a row only if no later row has the same raw
key values. -/
def drop_duplicates_keep_last (keyCols : List Col) : List Row → List Row
  | [] => []
  | r :: rs =>
    if rs.any (fun r2 => keyVals keyCols r2 = keyVals keyCols r) then
      drop_duplicates_keep_last keyCols rs
    else r :: drop_duplicates_keep_last keyCols rs

/-- One column-wise `master_df[col] = master_df[col].astype(str)`
(dsm-data.py line 676). -/
def astypeStrCol (rows : List Row) (c : Col) : List Row :=
  rows.map (fun r => r.setV c (Val.vstr ((r.getV c).render)))

/-- The `for col in key_columns: master_df[col] = master_df[col].astype(str)`
loop of dsm-data.py lines 675-676, column-major over the key columns. -/
def astypeStrCols (rows : List Row) (keyCols : List Col) : List Row :=
  keyCols.foldl astypeStrCol rows

/-- The `new_row[col] = str(new_row[col])` loop (dsm-data.py line 677),
row-major over the key columns. -/
def strRowKeys (keyCols : List Col) (r : Row) : Row :=
  keyCols.foldl (fun acc c => acc.setV c (Val.vstr ((acc.getV c).render))) r

/-- The record key of dsm-data.py lines 667-670:
`"_".join(str(new_row[col]) for col in key_columns)` when key columns
exist, else `str(new_row.iloc[0])` (which raises `IndexError` on an
empty row, modelled as `none`). -/
def record_key (keyCols : List Col) (r : Row) : Option String :=
  if keyCols.isEmpty then (r.head?).map (fun p => p.2.render)
  else some (String.intercalate "_" (keyStrings keyCols r))

/-- The boolean mask of dsm-data.py lines 680-682, applied to one
(already string-coerced) master row: conjunction of per-key-column
equality with the (already string-coerced) batch row. -/
def rowMatches (keyCols : List Col) (nr : Row) (m : Row) : Bool :=
  keyCols.all (fun c => m.getV c = nr.getV c)

/-- Column list after `pd.concat` with a new row (dsm-data.py line 696):
existing columns in order, then the row's new columns in row order. -/
def concatCols (cols : List Col) (r : Row) : List Col :=
  cols ++ ((r.map Prod.fst).filter (fun c => ¬ cols.contains c)).eraseDups

/-- A pandas frame is `empty` when either axis has length zero. -/
def frameEmpty (cols : List Col) (rows : List Row) : Bool :=
  rows.isEmpty || cols.isEmpty

/-- State threaded through the row-update loop of `process_dataframe`:
the accumulating master rows and columns plus the `added_records` /
`updated_records` logs. -/
structure MState where
  rows : List Row
  cols : List Col
  added : List String
  updated : List String
deriving DecidableEq, Repr

/-- One iteration of the `for _, new_row in final_df.iterrows()` loop of
dsm-data.py lines 665-696.  `none` models the `IndexError` paths
(`new_row.iloc[0]` on an empty row, `key_columns[0]` on an empty key
list while the lookup branch is active). -/
def mergeStep (keyCols : List Col) (st : MState) (nr : Row) :
    Option MState :=
  (record_key keyCols nr).bind (fun rk =>
    if ¬ (frameEmpty st.cols st.rows) ∧ keyCols.all (st.cols.contains ·) then
      match keyCols with
      | [] => none
      | _ :: _ =>
        let mrows := astypeStrCols st.rows keyCols
        let nr2 := strRowKeys keyCols nr
        let remaining := mrows.filter (fun m => !(rowMatches keyCols nr2 m))
        if mrows.any (fun m => rowMatches keyCols nr2 m) then
          some { rows := remaining ++ [nr2],
                 cols := concatCols st.cols nr2,
                 added := st.added, updated := st.updated ++ [rk] }
        else
          some { rows := mrows ++ [nr2],
                 cols := concatCols st.cols nr2,
                 added := st.added ++ [rk], updated := st.updated }
    else
      some { rows := st.rows ++ [nr], cols := concatCols st.cols nr,
             added := st.added ++ [rk], updated := st.updated })

/-- The whole row-update loop, folding `mergeStep` over the deduplicated
batch rows. -/
def mergeRows (keyCols : List Col) (st : MState) :
    List Row → Option MState
  | [] => some st
  | r :: rs =>
    match mergeStep keyCols st r with
    | none => none
    | some st2 => mergeRows keyCols st2 rs

/-- Stable insertion into a sorted list: the new element goes after
every element `x` with `le x r`, so elements already present keep
priority over the inserted (later) one. -/
def insertOrd {α : Type} (le : α → α → Bool) (r : α) : List α → List α
  | [] => [r]
  | x :: xs => if le x r then x :: insertOrd le r xs else r :: x :: xs

/-- Deterministic model of `DataFrame.sort_values` (dsm-data.py line
700): a stable insertion sort, inserting rows left to right.  With two
or more key columns pandas sorts with stable `lexsort`, which this
realizes exactly; with a single-column `by` list pandas dispatches to
`nargsort` with the default non-stable `kind="quicksort"`, which
guarantees only a sorted permutation (the contract
`sorted_permutation_of` below) — this model then realizes one
admissible outcome. -/
def sortOrd {α : Type} (le : α → α → Bool) (l : List α) : List α :=
  l.foldl (fun acc x => insertOrd le x acc) []

/-- Lexicographic code-point comparison of character lists, the order
Python/numpy use on strings. -/
def charListLe : List Char → List Char → Bool
  | [], _ => true
  | _ :: _, [] => false
  | c :: cs, d :: ds =>
    if c = d then charListLe cs ds else decide (c.toNat < d.toNat)

/-- Lexicographic string comparison by code points. -/
def strLeB (a b : String) : Bool := charListLe a.data b.data

/-- Ascending comparison of two cells, `NaN` last
(`sort_values` default `na_position="last"`).  The two cross-type arms
totalize a case where pandas itself raises `TypeError` (comparing an
integer with a string inside one key column); merges whose lookup
branch ran sort all-string key columns, so those arms are reached only
by sort statements quantified over arbitrary rows. -/
def Val.leB : Val → Val → Bool
  | .vnone, .vnone => true
  | _, .vnone => true
  | .vnone, _ => false
  | .vstr a, .vstr b => strLeB a b
  | .vint a, .vint b => decide (a ≤ b)
  | .vint _, .vstr _ => true
  | .vstr _, .vint _ => false

/-- Lexicographic comparison of key-value lists, as `sort_values` over a
list of key columns. -/
def lexLe : List Val → List Val → Bool
  | [], [] => true
  | [], _ :: _ => true
  | _ :: _, [] => false
  | a :: as, b :: bs => if a = b then lexLe as bs else Val.leB a b

/-- Row comparison for the final `sort_values(key_columns)`. -/
def rowLe (keyCols : List Col) (a b : Row) : Bool :=
  lexLe (keyVals keyCols a) (keyVals keyCols b)

/-- Sorted master rows, dsm-data.py lines 699-700: sort only when the
frame is non-empty and the key-column list is non-empty. -/
def finalSort (keyCols : List Col) (cols : List Col) (rows : List Row) :
    List Row :=
  if ¬ (frameEmpty cols rows) ∧ ¬ keyCols.isEmpty then
    sortOrd (rowLe keyCols) rows
  else rows

/-- The merge of `process_dataframe` with the key columns as an explicit
parameter (the loop of dsm-data.py lines 654-700 is parametric in
`key_columns`): deduplicate the batch, run the row-update loop, sort.
Returns `(newMaster, addedKeys, updatedKeys)`; `none` models the
exception paths (`KeyError` from `drop_duplicates` on a key column
absent from the batch, and the `IndexError` cases of `mergeStep`). -/
def mergeWithKeys (keyCols : List Col) (master batch : Table) :
    Option (Table × List String × List String) :=
  if ¬ keyCols.isEmpty ∧ ¬ keyCols.all (batch.cols.contains ·) then none
  else
    let finalRows :=
      if keyCols.isEmpty then batch.rows
      else drop_duplicates_keep_last keyCols batch.rows
    match mergeRows keyCols ⟨master.rows, master.cols, [], []⟩ finalRows with
    | none => none
    | some st =>
      some (⟨st.cols, finalSort keyCols st.cols st.rows⟩, st.added, st.updated)

/-- The in-memory merge semantics of `process_dataframe` (dsm-data.py
lines 631-716): key columns resolved from the batch columns, then the
parametric merge. -/
def process_dataframe_merge (master batch : Table) :
    Option (Table × List String × List String) :=
  mergeWithKeys (determine_key_columns batch.cols) master batch

/-- Cell written by `DataFrame.to_csv` (dsm-data.py line 702): plain
rendering, `NaN` as the empty field. -/
def write_csv_cell : Val → String
  | .vstr s => s
  | .vint n => toString n
  | .vnone => ""

/-- Decimal digit strings to their value, `none` when empty or holding
a non-digit. -/
def parseNatChars (l : List Char) : Option Nat :=
  if l ≠ [] ∧ l.all (fun c => 48 ≤ c.toNat ∧ c.toNat ≤ 57) then
    some (l.foldl (fun acc c => acc * 10 + (c.toNat - 48)) 0)
  else none

/-- Integer inference on a text field: an optionally minus-signed
digit string parses to its integer value. -/
def parseIntString (s : String) : Option Int :=
  match s.data with
  | [] => none
  | c :: rest =>
    if c = Char.ofNat 45 then
      (parseNatChars rest).map (fun n => -(n : Int))
    else (parseNatChars (c :: rest)).map (fun n => (n : Int))

/-- Cell re-read by `pd.read_csv` (dsm-data.py line 638) with default
type inference: empty or NA-token fields become `NaN`, integer-shaped
text becomes an integer (so `"05"` re-reads as `5`), everything else
stays a string.  Floating-point inference is outside the model. -/
def parse_csv_cell (s : String) : Val :=
  if s = "" ∨ s = "nan" then Val.vnone
  else
    match parseIntString s with
    | some n => Val.vint n
    | none => Val.vstr s

/-- The `to_csv` / `read_csv` round trip a master table undergoes
between two runs of `process_dataframe`. -/
def csv_round_trip (t : Table) : Table :=
  ⟨t.cols, t.rows.map (fun r => r.map (fun p => (p.1, parse_csv_cell (write_csv_cell p.2))))⟩

/-- Ledger entry of the change tracker: the recorded content hash plus
the metadata fields the scripts store (`last_updated`/`last_processed`
timestamp, origin URL, category).  The digest type `D` is abstract: the
scripts use `hashlib.md5` hexdigests, an external library primitive. -/
structure TrackEntry (D : Type) where
  hash : D
  stamp : String
  url : String
  ftype : String
deriving DecidableEq, Repr

/-- The change-tracking ledger `{ resourceId: entry }`, a Python dict in
insertion order. -/
abbrev Ledger (D : Type) := List (String × TrackEntry D)

/-- The `tracking_data.get(file_key, {}).get('hash')` of dsm-data.py
line 1004. -/
def previous_hash {D : Type} (t : Ledger D) (k : String) : Option D :=
  (assocFind t k).map (fun e => e.hash)

/-- The gating decision of `scheduled_update` (dsm-data.py line 1006):
process exactly when `previous_hash != file_hash`, where `file_hash` is
the digest of the fetched content (the `None`-hash case was already
skipped at line 999). -/
def should_process {D : Type} [DecidableEq D] (t : Ledger D) (k : String)
    (h : D) : Bool :=
  ¬ (previous_hash t k = some h)

/-- Recording a processed resource (dsm-data.py lines 1012-1017 and
erpc_extractor.py lines 430-435): replace any prior entry for the key. -/
def record_processed {D : Type} (t : Ledger D) (k : String)
    (e : TrackEntry D) : Ledger D :=
  assocSet t k e

/-- The `check_for_changes` of erpc_extractor.py lines 373-404:
`localHash` is the digest of the already-downloaded local copy when one
exists (`None` when no local copy is found or hashing fails).  Returns
false only for a recorded file whose local copy hashes to the recorded
hash. -/
def check_for_changes {D : Type} [DecidableEq D] (t : Ledger D)
    (filename : String) (localHash : Option D) : Bool :=
  match assocFind t filename with
  | some e =>
    match localHash with
    | some h => ¬ (e.hash = h)
    | none => true
  | none => true

/-- On-disk state of the tracking-ledger file as `load_file_tracking`
encounters it: absent, present but unreadable/malformed (the
`try`/`except` path), or readable with parsed content. -/
inductive FileState (L : Type) where
  | missing : FileState L
  | corrupt : FileState L
  | readable : L → FileState L

/-- The `load_file_tracking` of dsm-data.py lines 119-127 and
erpc_extractor.py lines 57-65 (textually identical): a missing file or
a failing `json.load` yields the empty ledger; the function is total,
so loading never propagates an error. -/
def load_file_tracking {D : Type} : FileState (Ledger D) → Ledger D
  | .missing => []
  | .corrupt => []
  | .readable m => m

/-- Outcomes of the external steps taken by the ERLDC
`download_and_process_file` for one resource: digest of any existing
local copy, and success/failure of download, excel-type check, sheet
processing, saving, and hashing of the downloaded file. -/
structure FetchOutcome (D : Type) where
  localHash : Option D
  downloadOk : Bool
  isExcel : Bool
  processedOk : Bool
  saveOk : Bool
  newHash : Option D
deriving DecidableEq, Repr

/-- Control flow of `download_and_process_file` (erpc_extractor.py
lines 406-445) abstracted over the step outcomes: returns the reported
success flag and the ledger as left on disk.  The ledger is written
(via `save_file_tracking`) only in the innermost branch where the
change check, download, excel check, processing, saving and hashing
all succeed; every other path leaves it untouched.  The `return True`
at line 437 sits outside the `if file_hash:` guard, so a hashing
failure still reports success — but skips the ledger write. -/
def download_and_process_file {D : Type} [DecidableEq D] (t : Ledger D)
    (filename stamp url dtype : String) (o : FetchOutcome D) :
    Bool × Ledger D :=
  if check_for_changes t filename o.localHash = false then (true, t)
  else if o.downloadOk = false then (false, t)
  else if o.isExcel then
    if o.processedOk then
      if o.saveOk then
        match o.newHash with
        | some h => (true, record_processed t filename ⟨h, stamp, url, dtype⟩)
        | none => (true, t)
      else (false, t)
    else (false, t)
  else (false, t)

/-- Python `str.strip()`: drop whitespace from both ends
(modelled over the ASCII whitespace characters). -/
def pyStrip (s : String) : String :=
  String.mk
    (((s.data.dropWhile Char.isWhitespace).reverse.dropWhile
      Char.isWhitespace).reverse)

/-- The column-name cleaning of dsm-data.py lines 597-598 (and
identically lines 100-101):
`[str(col).strip() if pd.notna(col) else f'Column_{i}' for i, col in enumerate(df.columns)]`.
A header cell is `none` when it is `NaN` (`pd.notna` false), otherwise
its value is rendered with `str()` and stripped. -/
def clean_column_names (cols : List (Option Val)) : List String :=
  cols.enum.map (fun p =>
    match p.2 with
    | some v => pyStrip (v.render)
    | none => "Column_" ++ toString p.1)

/-! ### Basic lemmas about rows and association lists -/

theorem map_self {α : Type} (l : List α) (f : α → α) (h : ∀ a ∈ l, f a = a) :
    l.map f = l := by
  induction l with
  | nil => rfl
  | cons a as ih =>
    simp only [List.map_cons, h a (List.mem_cons_self a as),
      ih (fun b hb => h b (List.mem_cons_of_mem a hb))]

theorem assocFind_map_update {β : Type} (l : List (String × β)) (k : String)
    (v : β) :
    assocFind (l.map (fun p => if p.1 = k then (k, v) else p)) k =
      if (assocFind l k).isSome then some v else none := by
  induction l with
  | nil => simp [assocFind]
  | cons p ps ih =>
    by_cases hp : p.1 = k
    · simp [assocFind, hp]
    · simp only [List.map_cons, if_neg hp, assocFind, if_neg hp]
      exact ih

theorem assocFind_append_single {β : Type} (l : List (String × β))
    (k k2 : String) (v : β) :
    assocFind (l ++ [(k, v)]) k2 =
      ((assocFind l k2).orElse (fun _ => if k = k2 then some v else none)) := by
  induction l with
  | nil => simp [assocFind]
  | cons p ps ih =>
    by_cases hp : p.1 = k2
    · simp [assocFind, hp]
    · simp only [List.cons_append, assocFind, if_neg hp]
      exact ih

theorem assocFind_set_self {β : Type} (l : List (String × β)) (k : String)
    (v : β) : assocFind (assocSet l k v) k = some v := by
  unfold assocSet
  by_cases h : (assocFind l k).isSome
  · rw [if_pos h, assocFind_map_update, if_pos h]
  · rw [if_neg h, assocFind_append_single]
    cases hf : assocFind l k with
    | some w => rw [hf] at h; simp at h
    | none => simp

theorem assocFind_map_update_ne {β : Type} (l : List (String × β))
    (k k2 : String) (v : β) (hne : k2 ≠ k) :
    assocFind (l.map (fun p => if p.1 = k then (k, v) else p)) k2 =
      assocFind l k2 := by
  induction l with
  | nil => simp [assocFind]
  | cons p ps ih =>
    by_cases hp : p.1 = k
    · simp only [List.map_cons, if_pos hp, assocFind, if_neg (Ne.symm hne)]
      rw [hp, if_neg fun h => hne h.symm]
      exact ih
    · simp only [List.map_cons, if_neg hp, assocFind]
      by_cases hp2 : p.1 = k2
      · simp [hp2]
      · simp only [if_neg hp2]
        exact ih

theorem assocFind_set_ne {β : Type} (l : List (String × β)) (k k2 : String)
    (v : β) (hne : k2 ≠ k) :
    assocFind (assocSet l k v) k2 = assocFind l k2 := by
  unfold assocSet
  by_cases h : (assocFind l k).isSome
  · rw [if_pos h, assocFind_map_update_ne _ _ _ _ hne]
  · rw [if_neg h, assocFind_append_single, if_neg fun hk => hne hk.symm]
    cases assocFind l k2 <;> rfl

theorem assocSet_bindings {β : Type} (l : List (String × β)) (k : String)
    (v : β) : ∀ p ∈ assocSet l k v, p.1 = k → p.2 = v := by
  unfold assocSet
  by_cases h : (assocFind l k).isSome
  · rw [if_pos h]
    intro p hp hk
    obtain ⟨q, hq, hfq⟩ := List.mem_map.mp hp
    by_cases hq1 : q.1 = k
    · rw [if_pos hq1] at hfq; rw [← hfq]
    · rw [if_neg hq1] at hfq; rw [← hfq] at hk; exact absurd hk hq1
  · rw [if_neg h]
    intro p hp hk
    rcases List.mem_append.mp hp with hl | hr
    · exfalso
      have : (assocFind l k).isSome := by
        clear h hp
        induction l with
        | nil => cases hl
        | cons q qs ih =>
          rcases List.mem_cons.mp hl with hq | hq
          · rw [hq] at hk
            simp [assocFind, hk]
          · by_cases hq1 : q.1 = k
            · simp [assocFind, hq1]
            · simp only [assocFind, if_neg hq1]
              exact ih hq
      exact h this
    · simp only [List.mem_singleton] at hr
      rw [hr]

theorem assocSet_preserve_bindings {β : Type} (l : List (String × β))
    (k k2 : String) (v w : β) (hne : k2 ≠ k)
    (h : ∀ p ∈ l, p.1 = k2 → p.2 = w) :
    ∀ p ∈ assocSet l k v, p.1 = k2 → p.2 = w := by
  unfold assocSet
  by_cases hs : (assocFind l k).isSome
  · rw [if_pos hs]
    intro p hp hk2
    obtain ⟨q, hq, hfq⟩ := List.mem_map.mp hp
    by_cases hq1 : q.1 = k
    · rw [if_pos hq1] at hfq
      rw [← hfq] at hk2
      exact absurd hk2.symm hne
    · rw [if_neg hq1] at hfq
      rw [← hfq] at hk2 ⊢
      exact h q hq hk2
  · rw [if_neg hs]
    intro p hp hk2
    rcases List.mem_append.mp hp with hl | hr
    · exact h p hl hk2
    · simp only [List.mem_singleton] at hr
      rw [hr] at hk2
      exact absurd hk2.symm hne

theorem assocSet_id {β : Type} (l : List (String × β)) (k : String) (v : β)
    (h1 : (assocFind l k).isSome) (h2 : ∀ p ∈ l, p.1 = k → p.2 = v) :
    assocSet l k v = l := by
  unfold assocSet
  rw [if_pos h1]
  refine map_self l _ (fun p hp => ?_)
  by_cases hk : p.1 = k
  · rw [if_pos hk, ← hk, ← h2 p hp hk]
  · rw [if_neg hk]

theorem map_congr_mem {α β : Type} (l : List α) (f g : α → β)
    (h : ∀ a ∈ l, f a = g a) : l.map f = l.map g := by
  induction l with
  | nil => rfl
  | cons a as ih =>
    simp only [List.map_cons, h a (List.mem_cons_self a as),
      ih (fun b hb => h b (List.mem_cons_of_mem a hb))]

theorem any_congr_mem {α : Type} (l : List α) (p q : α → Bool)
    (h : ∀ a ∈ l, p a = q a) : l.any p = l.any q := by
  induction l with
  | nil => rfl
  | cons a as ih =>
    simp only [List.any_cons, h a (List.mem_cons_self a as),
      ih (fun b hb => h b (List.mem_cons_of_mem a hb))]

theorem isEmpty_false_of_ne {α : Type} (l : List α) (h : l ≠ []) :
    l.isEmpty = false := by
  cases l with
  | nil => exact absurd rfl h
  | cons a as => rfl

theorem map_eq_map_iff_mem {α β : Type} (l : List α) (f g : α → β) :
    l.map f = l.map g ↔ ∀ a ∈ l, f a = g a := by
  constructor
  · intro h a ha
    induction l with
    | nil => cases ha
    | cons b bs ih =>
      simp only [List.map_cons, List.cons.injEq] at h
      rcases List.mem_cons.mp ha with hb | hb
      · rw [hb]; exact h.1
      · exact ih h.2 hb
  · exact map_congr_mem l f g

/-! ### Lemmas about the string coercion of key columns -/

theorem getV_setV_self (r : Row) (c : Col) (v : Val) :
    (r.setV c v).getV c = v := by
  unfold Row.getV Row.setV
  rw [assocFind_set_self]
  rfl

theorem getV_setV_ne (r : Row) (c c2 : Col) (v : Val) (hne : c2 ≠ c) :
    (r.setV c v).getV c2 = r.getV c2 := by
  unfold Row.getV Row.setV
  rw [assocFind_set_ne _ _ _ _ hne]

theorem strRowKeys_nil (r : Row) : strRowKeys [] r = r := rfl

theorem strRowKeys_cons (c : Col) (cs : List Col) (r : Row) :
    strRowKeys (c :: cs) r =
      strRowKeys cs (r.setV c (Val.vstr ((r.getV c).render))) := rfl

theorem assocFind_strRowKeys_not_mem (keyCols : List Col) (r : Row)
    (c : Col) (h : ¬ c ∈ keyCols) :
    assocFind (strRowKeys keyCols r) c = assocFind r c := by
  induction keyCols generalizing r with
  | nil => rfl
  | cons c0 cs ih =>
    have hne : c ≠ c0 := fun he => h (he ▸ List.mem_cons_self c0 cs)
    have hcs : ¬ c ∈ cs := fun he => h (List.mem_cons_of_mem c0 he)
    rw [strRowKeys_cons, ih _ hcs]
    exact assocFind_set_ne _ _ _ _ hne

theorem assocFind_strRowKeys_mem (keyCols : List Col) (r : Row) (c : Col)
    (h : c ∈ keyCols) :
    assocFind (strRowKeys keyCols r) c =
      some (Val.vstr ((r.getV c).render)) := by
  induction keyCols generalizing r with
  | nil => cases h
  | cons c0 cs ih =>
    rw [strRowKeys_cons]
    by_cases hcs : c ∈ cs
    · rw [ih _ hcs]
      by_cases hc0 : c = c0
      · rw [hc0, getV_setV_self]
        rfl
      · rw [getV_setV_ne _ _ _ _ hc0]
    · have hc0 : c = c0 := by
        rcases List.mem_cons.mp h with h1 | h1
        · exact h1
        · exact absurd h1 hcs
      rw [assocFind_strRowKeys_not_mem _ _ _ hcs, hc0]
      unfold Row.setV
      rw [assocFind_set_self]

theorem getV_strRowKeys_mem (keyCols : List Col) (r : Row) (c : Col)
    (h : c ∈ keyCols) :
    (strRowKeys keyCols r).getV c = Val.vstr ((r.getV c).render) := by
  unfold Row.getV
  rw [assocFind_strRowKeys_mem _ _ _ h]
  rfl

theorem keyStrings_strRowKeys (keyCols : List Col) (r : Row) :
    keyStrings keyCols (strRowKeys keyCols r) = keyStrings keyCols r := by
  unfold keyStrings
  refine map_congr_mem _ _ _ (fun c hc => ?_)
  rw [getV_strRowKeys_mem _ _ _ hc]
  rfl

theorem strRowKeys_preserve_bindings (keyCols : List Col) (r : Row)
    (c : Col) (w : Val) (hc : ¬ c ∈ keyCols)
    (h : ∀ p ∈ r, p.1 = c → p.2 = w) :
    ∀ p ∈ strRowKeys keyCols r, p.1 = c → p.2 = w := by
  induction keyCols generalizing r with
  | nil => exact h
  | cons c0 cs ih =>
    have hne : c ≠ c0 := fun he => hc (he ▸ List.mem_cons_self c0 cs)
    have hcs : ¬ c ∈ cs := fun he => hc (List.mem_cons_of_mem c0 he)
    rw [strRowKeys_cons]
    exact ih _ hcs (assocSet_preserve_bindings _ _ _ _ _ hne h)

theorem strRowKeys_bindings (keyCols : List Col) (r : Row) (c : Col)
    (hc : c ∈ keyCols) :
    ∀ p ∈ strRowKeys keyCols r, p.1 = c →
      p.2 = Val.vstr ((r.getV c).render) := by
  induction keyCols generalizing r with
  | nil => cases hc
  | cons c0 cs ih =>
    rw [strRowKeys_cons]
    by_cases hcs : c ∈ cs
    · intro p hp hpc
      rw [ih _ hcs p hp hpc]
      by_cases hc0 : c = c0
      · rw [hc0, getV_setV_self]
        rfl
      · rw [getV_setV_ne _ _ _ _ hc0]
    · have hc0 : c = c0 := by
        rcases List.mem_cons.mp hc with h1 | h1
        · exact h1
        · exact absurd h1 hcs
      subst hc0
      exact strRowKeys_preserve_bindings cs _ c _ hcs
        (assocSet_bindings r c _)

theorem strRowKeys_fixed (keyCols : List Col) (r : Row)
    (h : ∀ c ∈ keyCols, (assocFind r c).isSome ∧
      ∀ p ∈ r, p.1 = c → p.2 = Val.vstr ((r.getV c).render)) :
    strRowKeys keyCols r = r := by
  induction keyCols with
  | nil => rfl
  | cons c0 cs ih =>
    rw [strRowKeys_cons]
    have h0 := h c0 (List.mem_cons_self c0 cs)
    have hset : r.setV c0 (Val.vstr ((r.getV c0).render)) = r :=
      assocSet_id r c0 _ h0.1 h0.2
    rw [hset]
    exact ih (fun c hc => h c (List.mem_cons_of_mem c0 hc))

theorem strRowKeys_idem (keyCols : List Col) (r : Row) :
    strRowKeys keyCols (strRowKeys keyCols r) = strRowKeys keyCols r := by
  refine strRowKeys_fixed keyCols _ (fun c hc => ⟨?_, ?_⟩)
  · rw [assocFind_strRowKeys_mem _ _ _ hc]
    rfl
  · intro p hp hpc
    rw [strRowKeys_bindings keyCols r c hc p hp hpc,
      getV_strRowKeys_mem _ _ _ hc]
    rfl

theorem astypeStrCols_eq_map (keyCols : List Col) (rows : List Row) :
    astypeStrCols rows keyCols = rows.map (strRowKeys keyCols) := by
  induction keyCols generalizing rows with
  | nil =>
    unfold astypeStrCols
    simp only [List.foldl_nil]
    exact (map_self rows _ (fun r _ => rfl)).symm
  | cons c cs ih =>
    unfold astypeStrCols at ih ⊢
    simp only [List.foldl_cons]
    rw [ih]
    unfold astypeStrCol
    rw [List.map_map]
    rfl

theorem rowMatches_strKeys (keyCols : List Col) (nr m : Row) :
    rowMatches keyCols (strRowKeys keyCols nr) (strRowKeys keyCols m) =
      decide (keyStrings keyCols m = keyStrings keyCols nr) := by
  rw [Bool.eq_iff_iff]
  unfold rowMatches keyStrings
  simp only [List.all_eq_true, decide_eq_true_eq, map_eq_map_iff_mem]
  constructor
  · intro h c hc
    have := h c hc
    rw [getV_strRowKeys_mem _ _ _ hc, getV_strRowKeys_mem _ _ _ hc] at this
    have h2 : (Val.vstr ((m.getV c).render)).render =
        (Val.vstr ((nr.getV c).render)).render := by rw [this]
    exact h2
  · intro h c hc
    rw [getV_strRowKeys_mem _ _ _ hc, getV_strRowKeys_mem _ _ _ hc,
      h c hc]

/-! ### Characterization of one merge-loop iteration -/

/-- Does the string-rendered key of row m appear among the rows rs?
This is the effective comparison the lookup mask performs. -/
def keyHit (keyCols : List Col) (rs : List Row) (m : Row) : Bool :=
  rs.any (fun r => decide (keyStrings keyCols r = keyStrings keyCols m))

theorem record_key_of_ne (keyCols : List Col) (nr : Row)
    (hk : keyCols ≠ []) :
    record_key keyCols nr =
      some (String.intercalate "_" (keyStrings keyCols nr)) := by
  unfold record_key
  rw [if_neg]
  simp only [List.isEmpty_iff]
  exact hk

theorem mergeStep_active (keyCols : List Col) (st : MState) (nr : Row)
    (hk : keyCols ≠ []) (hr : st.rows ≠ []) (hc : st.cols ≠ [])
    (hcc : keyCols.all (st.cols.contains ·) = true) :
    mergeStep keyCols st nr = some
      { rows := (st.rows.map (strRowKeys keyCols)).filter
            (fun m => !(rowMatches keyCols (strRowKeys keyCols nr) m)) ++
          [strRowKeys keyCols nr],
        cols := concatCols st.cols (strRowKeys keyCols nr),
        added := if keyHit keyCols st.rows nr then st.added
          else st.added ++ [String.intercalate "_" (keyStrings keyCols nr)],
        updated := if keyHit keyCols st.rows nr then
            st.updated ++ [String.intercalate "_" (keyStrings keyCols nr)]
          else st.updated } := by
  unfold mergeStep
  rw [record_key_of_ne _ _ hk, Option.some_bind]
  have hfe : frameEmpty st.cols st.rows = false := by
    unfold frameEmpty
    rw [isEmpty_false_of_ne _ hr, isEmpty_false_of_ne _ hc]
    rfl
  rw [hfe]
  simp only [Bool.false_eq_true, not_false_iff, true_and, hcc, if_pos]
  cases keyCols with
  | nil => exact absurd rfl hk
  | cons c cs =>
    simp only
    rw [astypeStrCols_eq_map]
    have hany : ((st.rows.map (strRowKeys (c :: cs))).any
        (fun m => rowMatches (c :: cs) (strRowKeys (c :: cs) nr) m)) =
        keyHit (c :: cs) st.rows nr := by
      rw [List.any_map]
      unfold keyHit
      refine any_congr_mem _ _ _ (fun m _ => ?_)
      exact rowMatches_strKeys (c :: cs) nr m
    by_cases hh : keyHit (c :: cs) st.rows nr
    · rw [hh] at hany
      rw [if_pos hany, if_pos hh, if_pos hh]
    · simp only [hh, Bool.false_eq_true] at hany
      rw [if_neg (by simp [hany]), if_neg (by simp [hh]),
        if_neg (by simp [hh])]
      have hfilt : (st.rows.map (strRowKeys (c :: cs))).filter
          (fun m => !(rowMatches (c :: cs) (strRowKeys (c :: cs) nr) m)) =
          st.rows.map (strRowKeys (c :: cs)) := by
        refine List.filter_eq_self.mpr (fun m hm => ?_)
        simp only [Bool.not_eq_true', decide_eq_false_iff_not]
        cases hmb : rowMatches (c :: cs) (strRowKeys (c :: cs) nr) m
        · rfl
        · have hx : (st.rows.map (strRowKeys (c :: cs))).any
              (fun m => rowMatches (c :: cs) (strRowKeys (c :: cs) nr) m) =
              true := List.any_eq_true.mpr ⟨m, hm, hmb⟩
          rw [hany] at hx
          simp at hx
      rw [hfilt]

theorem filter_of_map {α β : Type} (l : List α) (f : α → β) (p : β → Bool) :
    (l.map f).filter p = (l.filter (fun a => p (f a))).map f := by
  induction l with
  | nil => rfl
  | cons a as ih =>
    simp only [List.map_cons, List.filter_cons]
    by_cases hp : p (f a)
    · simp only [hp, if_pos, List.map_cons, ih]
    · simp only [hp, Bool.false_eq_true, if_neg, ih, if_false]

theorem frameEmpty_eq_false (cols : List Col) (rows : List Row) :
    frameEmpty cols rows = false ↔ rows ≠ [] ∧ cols ≠ [] := by
  unfold frameEmpty
  cases rows <;> cases cols <;> simp

theorem cols_ne_of_all_contains (keyCols cols : List Col)
    (hk : keyCols ≠ []) (h : keyCols.all (cols.contains ·) = true) :
    cols ≠ [] := by
  cases keyCols with
  | nil => exact absurd rfl hk
  | cons c cs =>
    intro hc
    rw [hc] at h
    simp [List.all_cons, List.contains] at h

theorem contains_concatCols (cols : List Col) (r : Row) (c : Col)
    (h : cols.contains c = true) : (concatCols cols r).contains c = true := by
  unfold concatCols
  rw [List.elem_iff] at h ⊢
  exact List.mem_append_left _ h

theorem all_contains_concatCols (keyCols cols : List Col) (r : Row)
    (h : keyCols.all (cols.contains ·) = true) :
    keyCols.all ((concatCols cols r).contains ·) = true := by
  rw [List.all_eq_true] at h ⊢
  exact fun c hc => contains_concatCols cols r c (h c hc)

theorem concatCols_ne_nil (cols : List Col) (r : Row) (h : cols ≠ []) :
    concatCols cols r ≠ [] := by
  unfold concatCols
  intro hc
  exact h (List.append_eq_nil.mp hc).1

theorem keyHit_nil (keyCols : List Col) (m : Row) :
    keyHit keyCols [] m = false := rfl

theorem keyHit_cons (keyCols : List Col) (r : Row) (rs : List Row)
    (m : Row) :
    keyHit keyCols (r :: rs) m =
      (decide (keyStrings keyCols m = keyStrings keyCols r) ||
        keyHit keyCols rs m) := by
  unfold keyHit
  rw [List.any_cons]
  have hfl : decide (keyStrings keyCols r = keyStrings keyCols m) =
      decide (keyStrings keyCols m = keyStrings keyCols r) :=
    decide_eq_decide.mpr ⟨Eq.symm, Eq.symm⟩
  rw [hfl]

theorem keyHit_singleton (keyCols : List Col) (r m : Row) :
    keyHit keyCols [r] m =
      decide (keyStrings keyCols m = keyStrings keyCols r) := by
  rw [keyHit_cons, keyHit_nil, Bool.or_false]

theorem keyHit_strRowKeys (keyCols : List Col) (rs : List Row) (m : Row) :
    keyHit keyCols rs (strRowKeys keyCols m) = keyHit keyCols rs m := by
  unfold keyHit
  refine any_congr_mem _ _ _ (fun q _ => ?_)
  rw [keyStrings_strRowKeys]

theorem map_strRowKeys_idem (keyCols : List Col) (l : List Row) :
    (l.map (strRowKeys keyCols)).map (strRowKeys keyCols) =
      l.map (strRowKeys keyCols) := by
  rw [List.map_map]
  exact map_congr_mem _ _ _ (fun r _ => strRowKeys_idem keyCols r)

theorem keyStrings_eq_map_keyVals (keyCols : List Col) (r : Row) :
    keyStrings keyCols r = (keyVals keyCols r).map Val.render := by
  unfold keyStrings keyVals
  rw [List.map_map]
  rfl

theorem keyStrings_of_keyVals_eq (keyCols : List Col) (a b : Row)
    (h : keyVals keyCols a = keyVals keyCols b) :
    keyStrings keyCols a = keyStrings keyCols b := by
  rw [keyStrings_eq_map_keyVals, keyStrings_eq_map_keyVals, h]

theorem dedup_ne_nil (keyCols : List Col) (l : List Row) (h : l ≠ []) :
    drop_duplicates_keep_last keyCols l ≠ [] := by
  induction l with
  | nil => exact absurd rfl h
  | cons r rs ih =>
    unfold drop_duplicates_keep_last
    by_cases hd : rs.any (fun r2 => keyVals keyCols r2 = keyVals keyCols r)
    · rw [if_pos hd]
      refine ih ?_
      intro hrs
      rw [hrs] at hd
      simp [List.any_nil] at hd
    · rw [if_neg hd]
      exact List.cons_ne_nil r _

theorem keyHit_dedup (keyCols : List Col) (l : List Row) (m : Row) :
    keyHit keyCols (drop_duplicates_keep_last keyCols l) m =
      keyHit keyCols l m := by
  induction l with
  | nil => rfl
  | cons r rs ih =>
    unfold drop_duplicates_keep_last
    by_cases hd : rs.any (fun r2 => keyVals keyCols r2 = keyVals keyCols r)
    · rw [if_pos hd, ih, keyHit_cons]
      by_cases hm : decide (keyStrings keyCols m = keyStrings keyCols r) =
          true
      · rw [hm, Bool.true_or]
        obtain ⟨r2, hr2, hkv⟩ := List.any_eq_true.mp hd
        rw [decide_eq_true_eq] at hkv hm
        refine (List.any_eq_true.mpr ⟨r2, hr2, ?_⟩)
        rw [decide_eq_true_eq, keyStrings_of_keyVals_eq _ _ _ hkv, ← hm]
      · rw [Bool.not_eq_true] at hm
        rw [hm, Bool.false_or]
    · rw [if_neg hd, keyHit_cons, keyHit_cons, ih]

theorem filter_congr_mem {α : Type} (l : List α) (p q : α → Bool)
    (h : ∀ a ∈ l, p a = q a) : l.filter p = l.filter q := by
  induction l with
  | nil => rfl
  | cons a as ih =>
    simp only [List.filter_cons, h a (List.mem_cons_self a as),
      ih (fun b hb => h b (List.mem_cons_of_mem a hb))]

theorem append_singleton_ne_nil {α : Type} (l : List α) (x : α) :
    l ++ [x] ≠ [] := by
  intro h
  exact List.cons_ne_nil x [] (List.append_eq_nil.mp h).2

theorem filter_filter_mem {α : Type} (l : List α) (p q : α → Bool) :
    (l.filter p).filter q = l.filter (fun a => p a && q a) := by
  induction l with
  | nil => rfl
  | cons a as ih =>
    by_cases hp : p a
    · by_cases hq : q a
      · simp [List.filter_cons, hp, hq, ih]
      · simp [List.filter_cons, hp, hq, ih]
    · simp [List.filter_cons, hp, ih]

theorem mergeRows_nil (keyCols : List Col) (st : MState) :
    mergeRows keyCols st [] = some st := rfl

theorem mergeRows_cons (keyCols : List Col) (st st1 : MState) (r : Row)
    (rs : List Row) (h : mergeStep keyCols st r = some st1) :
    mergeRows keyCols st (r :: rs) = mergeRows keyCols st1 rs := by
  simp only [mergeRows, h]

theorem mergeStep_rows (keyCols : List Col) (st : MState) (r : Row)
    (hk : keyCols ≠ []) (hr : st.rows ≠ []) (hc : st.cols ≠ [])
    (hcc : keyCols.all (st.cols.contains ·) = true) :
    ∃ st1, mergeStep keyCols st r = some st1 ∧
      st1.rows = (st.rows.filter (fun m => !(keyHit keyCols [r] m))).map
          (strRowKeys keyCols) ++ [strRowKeys keyCols r] ∧
      st1.cols = concatCols st.cols (strRowKeys keyCols r) := by
  refine ⟨_, mergeStep_active keyCols st r hk hr hc hcc, ?_, rfl⟩
  simp only
  rw [filter_of_map]
  have hpt : st.rows.filter
      (fun a => !(rowMatches keyCols (strRowKeys keyCols r)
        (strRowKeys keyCols a))) =
      st.rows.filter (fun a => !(keyHit keyCols [r] a)) := by
    refine filter_congr_mem _ _ _ (fun a _ => ?_)
    rw [rowMatches_strKeys, keyHit_singleton]
  rw [hpt]

theorem mergeRows_survivors (keyCols : List Col) (hk : keyCols ≠ []) :
    ∀ (db : List Row) (st : MState), db ≠ [] →
    st.rows ≠ [] → st.cols ≠ [] →
    keyCols.all (st.cols.contains ·) = true →
    ∃ st2 app, mergeRows keyCols st db = some st2 ∧
      st2.rows = (st.rows.filter (fun m => !(keyHit keyCols db m))).map
          (strRowKeys keyCols) ++ app ∧
      st2.rows ≠ [] ∧ st2.cols ≠ [] ∧
      keyCols.all (st2.cols.contains ·) = true := by
  intro db
  induction db with
  | nil => intro st hdb; exact absurd rfl hdb
  | cons r rs ih =>
    intro st hdb hr hc hcc
    obtain ⟨st1, hstep, hrows1, hcols1⟩ :=
      mergeStep_rows keyCols st r hk hr hc hcc
    have h1r : st1.rows ≠ [] := by
      rw [hrows1]
      exact append_singleton_ne_nil _ _
    have h1c : st1.cols ≠ [] := by
      rw [hcols1]
      exact concatCols_ne_nil _ _ hc
    have h1cc : keyCols.all (st1.cols.contains ·) = true := by
      rw [hcols1]
      exact all_contains_concatCols _ _ _ hcc
    rw [mergeRows_cons keyCols st st1 r rs hstep]
    cases rs with
    | nil =>
      refine ⟨st1, [strRowKeys keyCols r], mergeRows_nil keyCols st1, ?_,
        h1r, h1c, h1cc⟩
      rw [hrows1]
    | cons r2 rs2 =>
      obtain ⟨st2, app2, hrun, hrows2, h2r, h2c, h2cc⟩ :=
        ih st1 (List.cons_ne_nil r2 rs2) h1r h1c h1cc
      refine ⟨st2, ([strRowKeys keyCols r].filter
          (fun m => !(keyHit keyCols (r2 :: rs2) m))).map
            (strRowKeys keyCols) ++ app2, hrun, ?_, h2r, h2c, h2cc⟩
      rw [hrows2, hrows1, List.filter_append, filter_of_map,
        List.map_append, map_strRowKeys_idem]
      have hcomp : (st.rows.filter
          (fun m => !(keyHit keyCols [r] m))).filter
          (fun a => !(keyHit keyCols (r2 :: rs2) (strRowKeys keyCols a))) =
          st.rows.filter (fun m => !(keyHit keyCols (r :: r2 :: rs2) m)) := by
        rw [filter_filter_mem]
        refine filter_congr_mem _ _ _ (fun a _ => ?_)
        simp only [keyHit_strRowKeys, keyHit_cons, keyHit_nil,
          Bool.or_false, Bool.not_or]
      rw [hcomp, List.append_assoc]

theorem mergeStep_inactive (keyCols : List Col) (st : MState) (nr : Row)
    (hk : keyCols ≠ [])
    (h : frameEmpty st.cols st.rows = true ∨
      keyCols.all (st.cols.contains ·) = false) :
    mergeStep keyCols st nr = some
      { rows := st.rows ++ [nr], cols := concatCols st.cols nr,
        added := st.added ++
          [String.intercalate "_" (keyStrings keyCols nr)],
        updated := st.updated } := by
  unfold mergeStep
  rw [record_key_of_ne _ _ hk, Option.some_bind]
  rw [if_neg]
  rcases h with h | h
  · intro hcon
    rw [h] at hcon
    exact hcon.1 rfl
  · intro hcon
    rw [h] at hcon
    exact absurd hcon.2 (by simp)

/-! ### Order properties of the sort comparison -/
theorem charListLe_refl (l : List Char) : charListLe l l = true := by
  induction l with
  | nil => rfl
  | cons c cs ih =>
    unfold charListLe
    rw [if_pos rfl]
    exact ih

theorem charListLe_total (a b : List Char) :
    charListLe a b = true ∨ charListLe b a = true := by
  induction a generalizing b with
  | nil => exact Or.inl rfl
  | cons c cs ih =>
    cases b with
    | nil => exact Or.inr rfl
    | cons d ds =>
      unfold charListLe
      by_cases hcd : c = d
      · rw [if_pos hcd, if_pos hcd.symm]
        exact ih ds
      · rw [if_neg hcd, if_neg (fun h => hcd h.symm)]
        simp only [decide_eq_true_eq]
        have hne : c.toNat ≠ d.toNat := by
          intro h
          exact hcd (Char.ext (UInt32.ext h))
        omega

theorem charListLe_trans (a b c : List Char) (h1 : charListLe a b = true)
    (h2 : charListLe b c = true) : charListLe a c = true := by
  induction a generalizing b c with
  | nil => rfl
  | cons x xs ih =>
    cases b with
    | nil => cases h1
    | cons y ys =>
      cases c with
      | nil => cases h2
      | cons z zs =>
        unfold charListLe at h1 h2 ⊢
        by_cases hxy : x = y
        · rw [if_pos hxy] at h1
          by_cases hyz : y = z
          · rw [if_pos hyz] at h2
            rw [if_pos (hxy.trans hyz)]
            exact ih ys zs h1 h2
          · rw [if_neg hyz] at h2
            rw [if_neg (hxy ▸ hyz), hxy]
            exact h2
        · rw [if_neg hxy] at h1
          by_cases hyz : y = z
          · rw [← hyz, if_neg hxy]
            exact h1
          · rw [if_neg hyz] at h2
            simp only [decide_eq_true_eq] at h1 h2
            by_cases hxz : x = z
            · rw [hxz] at h1
              omega
            · rw [if_neg hxz]
              simp only [decide_eq_true_eq]
              omega

theorem charListLe_antisymm (a b : List Char) (h1 : charListLe a b = true)
    (h2 : charListLe b a = true) : a = b := by
  induction a generalizing b with
  | nil =>
    cases b with
    | nil => rfl
    | cons d ds => cases h2
  | cons c cs ih =>
    cases b with
    | nil => cases h1
    | cons d ds =>
      unfold charListLe at h1 h2
      by_cases hcd : c = d
      · rw [if_pos hcd] at h1
        rw [if_pos hcd.symm] at h2
        rw [hcd, ih ds h1 h2]
      · rw [if_neg hcd] at h1
        rw [if_neg (fun h => hcd h.symm)] at h2
        simp only [decide_eq_true_eq] at h1 h2
        omega

theorem strLeB_refl (a : String) : strLeB a a = true :=
  charListLe_refl a.data

theorem strLeB_total (a b : String) :
    strLeB a b = true ∨ strLeB b a = true :=
  charListLe_total a.data b.data

theorem strLeB_trans (a b c : String) (h1 : strLeB a b = true)
    (h2 : strLeB b c = true) : strLeB a c = true :=
  charListLe_trans a.data b.data c.data h1 h2

theorem strLeB_antisymm (a b : String) (h1 : strLeB a b = true)
    (h2 : strLeB b a = true) : a = b := by
  cases a with
  | mk da =>
    cases b with
    | mk db => exact congrArg String.mk (charListLe_antisymm da db h1 h2)

theorem leB_refl (a : Val) : Val.leB a a = true := by
  cases a with
  | vstr s => exact strLeB_refl s
  | vint n => simp [Val.leB]
  | vnone => rfl

theorem leB_total (a b : Val) : Val.leB a b = true ∨ Val.leB b a = true := by
  cases a <;> cases b <;>
    first
    | exact Or.inl rfl
    | exact Or.inr rfl
    | exact strLeB_total _ _
    | (simp only [Val.leB, decide_eq_true_eq]; exact le_total _ _)

theorem leB_trans (a b c : Val) (h1 : Val.leB a b = true)
    (h2 : Val.leB b c = true) : Val.leB a c = true := by
  cases a <;> cases b <;> cases c <;>
    first
    | rfl
    | exact Bool.noConfusion h1
    | exact Bool.noConfusion h2
    | exact strLeB_trans _ _ _ h1 h2
    | (simp only [Val.leB, decide_eq_true_eq] at h1 h2 ⊢;
        exact le_trans h1 h2)

theorem leB_antisymm (a b : Val) (h1 : Val.leB a b = true)
    (h2 : Val.leB b a = true) : a = b := by
  cases a <;> cases b <;>
    first
    | rfl
    | exact Bool.noConfusion h1
    | exact Bool.noConfusion h2
    | exact congrArg Val.vstr (strLeB_antisymm _ _ h1 h2)
    | (simp only [Val.leB, decide_eq_true_eq] at h1 h2;
        exact congrArg Val.vint (le_antisymm h1 h2))

theorem lexLe_refl (u : List Val) : lexLe u u = true := by
  induction u with
  | nil => rfl
  | cons a as ih =>
    unfold lexLe
    rw [if_pos rfl]
    exact ih

theorem lexLe_total (u v : List Val) :
    lexLe u v = true ∨ lexLe v u = true := by
  induction u generalizing v with
  | nil =>
    cases v with
    | nil => exact Or.inl rfl
    | cons b bs => exact Or.inl rfl
  | cons a as ih =>
    cases v with
    | nil => exact Or.inr rfl
    | cons b bs =>
      unfold lexLe
      by_cases hab : a = b
      · rw [if_pos hab, if_pos hab.symm]
        exact ih bs
      · rw [if_neg hab, if_neg (fun h => hab h.symm)]
        exact leB_total a b

theorem lexLe_trans (u v w : List Val) (h1 : lexLe u v = true)
    (h2 : lexLe v w = true) : lexLe u w = true := by
  induction u generalizing v w with
  | nil =>
    cases w with
    | nil => rfl
    | cons c cs => rfl
  | cons a as ih =>
    cases v with
    | nil => cases h1
    | cons b bs =>
      cases w with
      | nil => cases h2
      | cons c cs =>
        unfold lexLe at h1 h2 ⊢
        by_cases hab : a = b
        · rw [if_pos hab] at h1
          by_cases hbc : b = c
          · rw [if_pos hbc] at h2
            rw [if_pos (hab.trans hbc)]
            exact ih bs cs h1 h2
          · rw [if_neg hbc] at h2
            rw [if_neg (hab ▸ hbc), hab]
            exact h2
        · rw [if_neg hab] at h1
          by_cases hbc : b = c
          · rw [← hbc, if_neg hab]
            exact h1
          · rw [if_neg hbc] at h2
            by_cases hac : a = c
            · exact absurd (leB_antisymm a b h1 (hac ▸ h2)) hab
            · rw [if_neg hac]
              exact leB_trans a b c h1 h2

theorem rowLe_refl_of_keyVals (keyCols : List Col) (a b : Row)
    (h : keyVals keyCols a = keyVals keyCols b) :
    rowLe keyCols a b = true := by
  unfold rowLe
  rw [h]
  exact lexLe_refl _

theorem rowLe_total (keyCols : List Col) (a b : Row) :
    rowLe keyCols a b = true ∨ rowLe keyCols b a = true :=
  lexLe_total _ _

theorem rowLe_trans (keyCols : List Col) (a b c : Row)
    (h1 : rowLe keyCols a b = true) (h2 : rowLe keyCols b c = true) :
    rowLe keyCols a c = true :=
  lexLe_trans _ _ _ h1 h2

/-! ### Stable insertion sort: permutation, sortedness, stability -/

theorem insertOrd_perm {α : Type} (le : α → α → Bool) (x : α)
    (l : List α) : List.Perm (insertOrd le x l) (x :: l) := by
  induction l with
  | nil => exact List.Perm.refl _
  | cons y ys ih =>
    unfold insertOrd
    by_cases h : le y x
    · rw [if_pos h]
      exact (ih.cons y).trans (List.Perm.swap x y ys)
    · rw [if_neg h]

theorem foldl_insertOrd_perm {α : Type} (le : α → α → Bool) :
    ∀ (l acc : List α),
      List.Perm (l.foldl (fun acc x => insertOrd le x acc) acc)
        (acc ++ l) := by
  intro l
  induction l with
  | nil => intro acc; simp
  | cons x xs ih =>
    intro acc
    rw [List.foldl_cons]
    refine (ih (insertOrd le x acc)).trans ?_
    refine (List.Perm.append_right xs (insertOrd_perm le x acc)).trans ?_
    have h2 : List.Perm (x :: (acc ++ xs)) (acc ++ x :: xs) :=
      List.perm_middle.symm
    simpa using h2

theorem sortOrd_perm {α : Type} (le : α → α → Bool) (l : List α) :
    List.Perm (sortOrd le l) l := by
  unfold sortOrd
  simpa using foldl_insertOrd_perm le l []

theorem insertOrd_pairwise {α : Type} (le : α → α → Bool)
    (htot : ∀ a b, le a b = true ∨ le b a = true)
    (htrans : ∀ a b c, le a b = true → le b c = true → le a c = true)
    (x : α) (l : List α)
    (hl : l.Pairwise (fun a b => le a b = true)) :
    (insertOrd le x l).Pairwise (fun a b => le a b = true) := by
  induction l with
  | nil => simp [insertOrd]
  | cons y ys ih =>
    unfold insertOrd
    rcases List.pairwise_cons.mp hl with ⟨hy, hys⟩
    by_cases h : le y x
    · rw [if_pos h]
      refine List.pairwise_cons.mpr ⟨?_, ih hys⟩
      intro z hz
      have hz2 := (insertOrd_perm le x ys).mem_iff.mp hz
      rcases List.mem_cons.mp hz2 with hz3 | hz3
      · rw [hz3]; exact h
      · exact hy z hz3
    · rw [if_neg h]
      have hxy : le x y = true := by
        rcases htot x y with h1 | h1
        · exact h1
        · exact absurd h1 h
      refine List.pairwise_cons.mpr ⟨?_, hl⟩
      intro z hz
      rcases List.mem_cons.mp hz with hz3 | hz3
      · rw [hz3]; exact hxy
      · exact htrans x y z hxy (hy z hz3)

theorem foldl_insertOrd_pairwise {α : Type} (le : α → α → Bool)
    (htot : ∀ a b, le a b = true ∨ le b a = true)
    (htrans : ∀ a b c, le a b = true → le b c = true → le a c = true) :
    ∀ (l acc : List α), acc.Pairwise (fun a b => le a b = true) →
      (l.foldl (fun acc x => insertOrd le x acc) acc).Pairwise
        (fun a b => le a b = true) := by
  intro l
  induction l with
  | nil => intro acc hacc; exact hacc
  | cons x xs ih =>
    intro acc hacc
    rw [List.foldl_cons]
    exact ih _ (insertOrd_pairwise le htot htrans x acc hacc)

theorem sortOrd_pairwise {α : Type} (le : α → α → Bool)
    (htot : ∀ a b, le a b = true ∨ le b a = true)
    (htrans : ∀ a b c, le a b = true → le b c = true → le a c = true)
    (l : List α) :
    (sortOrd le l).Pairwise (fun a b => le a b = true) :=
  foldl_insertOrd_pairwise le htot htrans l [] List.Pairwise.nil

theorem filter_cons_pos {α : Type} (p : α → Bool) (x : α) (l : List α)
    (h : p x = true) : (x :: l).filter p = x :: l.filter p := by
  simp [List.filter_cons, h]

theorem filter_cons_neg {α : Type} (p : α → Bool) (x : α) (l : List α)
    (h : p x = false) : (x :: l).filter p = l.filter p := by
  simp [List.filter_cons, h]

theorem filter_insertOrd {α β : Type} [DecidableEq β] (le : α → α → Bool)
    (key : α → β)
    (hkey : ∀ a b, key a = key b → le a b = true)
    (htrans : ∀ a b c, le a b = true → le b c = true → le a c = true)
    (x : α) (k : β) (l : List α)
    (hl : l.Pairwise (fun a b => le a b = true)) :
    (insertOrd le x l).filter (fun a => decide (key a = k)) =
      l.filter (fun a => decide (key a = k)) ++
        [x].filter (fun a => decide (key a = k)) := by
  induction l with
  | nil => simp [insertOrd]
  | cons y ys ih =>
    rcases List.pairwise_cons.mp hl with ⟨hy, hys⟩
    unfold insertOrd
    by_cases h : le y x
    · rw [if_pos h]
      by_cases hyk : key y = k
      · rw [filter_cons_pos _ _ _ (by simp [hyk]),
          filter_cons_pos _ _ _ (by simp [hyk]), ih hys]
        rfl
      · rw [filter_cons_neg _ _ _ (by simp [hyk]),
          filter_cons_neg _ _ _ (by simp [hyk]), ih hys]
    · rw [if_neg h]
      by_cases hxk : key x = k
      · have hempty : (y :: ys).filter (fun a => decide (key a = k)) =
            [] := by
          rw [List.filter_eq_nil_iff]
          intro z hz
          simp only [decide_eq_true_eq]
          intro hzk
          have hzx : le z x = true := hkey z x (by rw [hzk, hxk])
          rcases List.mem_cons.mp hz with hz2 | hz2
          · rw [hz2] at hzx
            exact h hzx
          · exact h (htrans y z x (hy z hz2) hzx)
        rw [filter_cons_pos _ _ _ (by simp [hxk]), hempty,
          filter_cons_pos _ _ _ (by simp [hxk])]
        rfl
      · have hx0 : [x].filter (fun a => decide (key a = k)) = [] := by
          simp [hxk]
        rw [filter_cons_neg _ _ _ (by simp [hxk]), hx0, List.append_nil]

theorem filter_foldl_insertOrd {α β : Type} [DecidableEq β]
    (le : α → α → Bool) (key : α → β)
    (hkey : ∀ a b, key a = key b → le a b = true)
    (htot : ∀ a b, le a b = true ∨ le b a = true)
    (htrans : ∀ a b c, le a b = true → le b c = true → le a c = true)
    (k : β) :
    ∀ (l acc : List α), acc.Pairwise (fun a b => le a b = true) →
      (l.foldl (fun acc x => insertOrd le x acc) acc).filter
          (fun a => decide (key a = k)) =
        acc.filter (fun a => decide (key a = k)) ++
          l.filter (fun a => decide (key a = k)) := by
  intro l
  induction l with
  | nil => intro acc hacc; simp
  | cons x xs ih =>
    intro acc hacc
    rw [List.foldl_cons,
      ih _ (insertOrd_pairwise le htot htrans x acc hacc),
      filter_insertOrd le key hkey htrans x k acc hacc]
    by_cases hxk : key x = k
    · rw [filter_cons_pos _ _ _ (by simp [hxk]),
        filter_cons_pos _ _ _ (by simp [hxk]), List.filter_nil]
      simp
    · rw [filter_cons_neg _ _ _ (by simp [hxk]),
        filter_cons_neg _ _ _ (by simp [hxk]), List.filter_nil]
      simp

theorem filter_sortOrd {α β : Type} [DecidableEq β] (le : α → α → Bool)
    (key : α → β)
    (hkey : ∀ a b, key a = key b → le a b = true)
    (htot : ∀ a b, le a b = true ∨ le b a = true)
    (htrans : ∀ a b c, le a b = true → le b c = true → le a c = true)
    (k : β) (l : List α) :
    (sortOrd le l).filter (fun a => decide (key a = k)) =
      l.filter (fun a => decide (key a = k)) := by
  unfold sortOrd
  rw [filter_foldl_insertOrd le key hkey htot htrans k l []
    List.Pairwise.nil]
  rfl

/-! ### The merge loop when no key collisions occur -/

theorem keyHit_eq_false (keyCols : List Col) (rs : List Row) (m : Row)
    (h : ∀ q ∈ rs, keyStrings keyCols q ≠ keyStrings keyCols m) :
    keyHit keyCols rs m = false := by
  rw [Bool.eq_false_iff]
  intro htrue
  unfold keyHit at htrue
  obtain ⟨q, hq, hqe⟩ := List.any_eq_true.mp htrue
  rw [decide_eq_true_eq] at hqe
  exact h q hq hqe

theorem mem_filter_map_strRowKeys (keyCols : List Col) (rows : List Row)
    (p : Row → Bool) (m2 : Row)
    (h : m2 ∈ (rows.map (strRowKeys keyCols)).filter p) :
    ∃ m ∈ rows, keyStrings keyCols m2 = keyStrings keyCols m := by
  have h2 := (List.mem_filter.mp h).1
  obtain ⟨m, hm, hme⟩ := List.mem_map.mp h2
  refine ⟨m, hm, ?_⟩
  rw [← hme, keyStrings_strRowKeys]

theorem mergeRows_all_added (keyCols : List Col) (hk : keyCols ≠ []) :
    ∀ (db : List Row) (st : MState),
    (∀ r ∈ db, ∀ m ∈ st.rows,
      keyStrings keyCols r ≠ keyStrings keyCols m) →
    db.Pairwise (fun a b => keyStrings keyCols a ≠ keyStrings keyCols b) →
    ∃ st2, mergeRows keyCols st db = some st2 ∧
      st2.added = st.added ++
        db.map (fun r => String.intercalate "_" (keyStrings keyCols r)) ∧
      st2.updated = st.updated ∧
      (∀ m2 ∈ st2.rows,
        (∃ m ∈ st.rows, keyStrings keyCols m2 = keyStrings keyCols m) ∨
        (∃ r ∈ db, keyStrings keyCols m2 = keyStrings keyCols r)) := by
  intro db
  induction db with
  | nil =>
    intro st hnew hpair
    refine ⟨st, mergeRows_nil keyCols st, by simp, rfl, ?_⟩
    intro m2 hm2
    exact Or.inl ⟨m2, hm2, rfl⟩
  | cons r rs ih =>
    intro st hnew hpair
    rcases List.pairwise_cons.mp hpair with ⟨hpr, hprs⟩
    by_cases hact : frameEmpty st.cols st.rows = false ∧
        keyCols.all (st.cols.contains ·) = true
    · have hre := (frameEmpty_eq_false st.cols st.rows).mp hact.1
      have hkh : keyHit keyCols st.rows r = false :=
        keyHit_eq_false keyCols st.rows r
          (fun q hq hqe =>
            hnew r (List.mem_cons_self r rs) q hq hqe.symm)
      have hstep := mergeStep_active keyCols st r hk hre.1 hre.2 hact.2
      rw [hkh] at hstep
      simp only [Bool.false_eq_true, if_neg, if_false] at hstep
      rw [mergeRows_cons keyCols st _ r rs hstep]
      have hnew2 : ∀ r2 ∈ rs, ∀ m2 ∈
          ((st.rows.map (strRowKeys keyCols)).filter
            (fun m => !(rowMatches keyCols (strRowKeys keyCols r) m)) ++
              [strRowKeys keyCols r]),
          keyStrings keyCols r2 ≠ keyStrings keyCols m2 := by
        intro r2 hr2 m2 hm2
        rcases List.mem_append.mp hm2 with hmf | hmr
        · obtain ⟨m, hm, hme⟩ :=
            mem_filter_map_strRowKeys keyCols st.rows _ m2 hmf
          rw [hme]
          exact hnew r2 (List.mem_cons_of_mem r hr2) m hm
        · rw [List.mem_singleton.mp hmr, keyStrings_strRowKeys]
          exact (hpr r2 hr2).symm
      obtain ⟨st2, hrun, hadd, hupd, hmem⟩ := ih
        { rows := (st.rows.map (strRowKeys keyCols)).filter
              (fun m => !(rowMatches keyCols (strRowKeys keyCols r) m)) ++
            [strRowKeys keyCols r],
          cols := concatCols st.cols (strRowKeys keyCols r),
          added := st.added ++
            [String.intercalate "_" (keyStrings keyCols r)],
          updated := st.updated } hnew2 hprs
      refine ⟨st2, hrun, ?_, hupd, ?_⟩
      · rw [hadd]
        simp
      · intro m2 hm2
        rcases hmem m2 hm2 with ⟨m, hm, hme⟩ | ⟨r2, hr2, hre2⟩
        · rcases List.mem_append.mp hm with hmf | hmr
          · obtain ⟨m0, hm0, hme0⟩ :=
              mem_filter_map_strRowKeys keyCols st.rows _ m hmf
            exact Or.inl ⟨m0, hm0, hme.trans hme0⟩
          · refine Or.inr ⟨r, List.mem_cons_self r rs, ?_⟩
            rw [hme, List.mem_singleton.mp hmr, keyStrings_strRowKeys]
        · exact Or.inr ⟨r2, List.mem_cons_of_mem r hr2, hre2⟩
    · have hinact : frameEmpty st.cols st.rows = true ∨
          keyCols.all (st.cols.contains ·) = false := by
        by_cases hfe : frameEmpty st.cols st.rows = true
        · exact Or.inl hfe
        · refine Or.inr ?_
          rw [Bool.eq_false_iff]
          intro hall
          exact hact ⟨Bool.not_eq_true _ ▸ hfe, hall⟩
      have hstep := mergeStep_inactive keyCols st r hk hinact
      rw [mergeRows_cons keyCols st _ r rs hstep]
      have hnew2 : ∀ r2 ∈ rs, ∀ m2 ∈ (st.rows ++ [r]),
          keyStrings keyCols r2 ≠ keyStrings keyCols m2 := by
        intro r2 hr2 m2 hm2
        rcases List.mem_append.mp hm2 with hmf | hmr
        · exact hnew r2 (List.mem_cons_of_mem r hr2) m2 hmf
        · rw [List.mem_singleton.mp hmr]
          exact (hpr r2 hr2).symm
      obtain ⟨st2, hrun, hadd, hupd, hmem⟩ := ih
        { rows := st.rows ++ [r], cols := concatCols st.cols r,
          added := st.added ++
            [String.intercalate "_" (keyStrings keyCols r)],
          updated := st.updated } hnew2 hprs
      refine ⟨st2, hrun, ?_, hupd, ?_⟩
      · rw [hadd]
        simp
      · intro m2 hm2
        rcases hmem m2 hm2 with ⟨m, hm, hme⟩ | ⟨r2, hr2, hre2⟩
        · rcases List.mem_append.mp hm with hmf | hmr
          · exact Or.inl ⟨m, hmf, hme⟩
          · refine Or.inr ⟨r, List.mem_cons_self r rs, ?_⟩
            rw [hme, List.mem_singleton.mp hmr]
        · exact Or.inr ⟨r2, List.mem_cons_of_mem r hr2, hre2⟩

theorem dedup_eq_self_of_distinct (keyCols : List Col) (l : List Row)
    (hp : l.Pairwise (fun a b => keyVals keyCols a ≠ keyVals keyCols b)) :
    drop_duplicates_keep_last keyCols l = l := by
  induction l with
  | nil => rfl
  | cons r rs ih =>
    rcases List.pairwise_cons.mp hp with ⟨hr, hrs⟩
    unfold drop_duplicates_keep_last
    have hany : (rs.any
        (fun r2 => keyVals keyCols r2 = keyVals keyCols r)) = false := by
      rw [Bool.eq_false_iff]
      intro htrue
      obtain ⟨r2, hr2, hre⟩ := List.any_eq_true.mp htrue
      rw [decide_eq_true_eq] at hre
      exact hr r2 hr2 hre.symm
    rw [hany]
    simp only [Bool.false_eq_true, if_neg, if_false]
    rw [ih hrs]

/-! ### Concrete tables used in the claim scenarios -/

/-- Master table of the spec's concrete merge scenario. -/
def masterC1 : Table :=
  ⟨["Station", "Date", "Value"],
   [[("Station", Val.vstr "A"), ("Date", Val.vstr "2024-01-01"),
     ("Value", Val.vint 10)]]⟩

/-- Batch table of the spec's concrete merge scenario. -/
def batchC1 : Table :=
  ⟨["Station", "Date", "Value"],
   [[("Station", Val.vstr "A"), ("Date", Val.vstr "2024-01-01"),
     ("Value", Val.vint 12)],
    [("Station", Val.vstr "B"), ("Date", Val.vstr "2024-01-01"),
     ("Value", Val.vint 5)]]⟩

/-- Batch with an integer key cell, used to exhibit the type-coercion
side effect of the merge. -/
def batchC3 : Table :=
  ⟨["Date", "Value"], [[("Date", Val.vint 5), ("Value", Val.vint 1)]]⟩

/-- Batch whose key is an integer-shaped string with a leading zero. -/
def batch05 : Table :=
  ⟨["Date", "Value"], [[("Date", Val.vstr "05"), ("Value", Val.vint 1)]]⟩

/-! ### Claim theorems -/

/-- C1: merging a deduplicated batch into a non-empty master containing
all key columns treats each batch row as follows: a row whose
key-column values match an existing master row removes the matched
row(s), appends the batch row and records its key among the updated
keys; a row with no match is appended with its key among the added
keys.  In the concrete scenario with master `[{A, 2024-01-01, 10}]`,
batch `[{A, 2024-01-01, 12}, {B, 2024-01-01, 5}]` and key columns
`(Station, Date)`, the result is `[{A, 2024-01-01, 12},
{B, 2024-01-01, 5}]` with addedKeys `[B_2024-01-01]` and updatedKeys
`[A_2024-01-01]`. -/
theorem C1_merge_step_and_scenario :
    (∀ (keyCols : List Col) (st : MState) (nr : Row),
      keyCols ≠ [] → st.rows ≠ [] → st.cols ≠ [] →
      keyCols.all (st.cols.contains ·) = true →
      mergeStep keyCols st nr = some
        { rows := (st.rows.map (strRowKeys keyCols)).filter
              (fun m => !(rowMatches keyCols (strRowKeys keyCols nr) m)) ++
            [strRowKeys keyCols nr],
          cols := concatCols st.cols (strRowKeys keyCols nr),
          added := if keyHit keyCols st.rows nr then st.added
            else st.added ++
              [String.intercalate "_" (keyStrings keyCols nr)],
          updated := if keyHit keyCols st.rows nr then
              st.updated ++
                [String.intercalate "_" (keyStrings keyCols nr)]
            else st.updated }) ∧
    mergeWithKeys ["Station", "Date"] masterC1 batchC1 =
      some (⟨["Station", "Date", "Value"],
        [[("Station", Val.vstr "A"), ("Date", Val.vstr "2024-01-01"),
          ("Value", Val.vint 12)],
         [("Station", Val.vstr "B"), ("Date", Val.vstr "2024-01-01"),
          ("Value", Val.vint 5)]]⟩,
        ["B_2024-01-01"], ["A_2024-01-01"]) :=
  ⟨fun keyCols st nr hk hr hc hcc =>
    mergeStep_active keyCols st nr hk hr hc hcc, by decide⟩

/-- C1 witness: the step characterization applied to a concrete
one-row master and a non-matching batch row. -/
theorem C1_witness :
    mergeStep ["K"] ⟨[[("K", Val.vstr "a")]], ["K"], [], []⟩
      [("K", Val.vstr "b")] =
      some ⟨[[("K", Val.vstr "a")], [("K", Val.vstr "b")]], ["K"],
        ["b"], []⟩ := by
  have h := C1_merge_step_and_scenario.1 ["K"]
    ⟨[[("K", Val.vstr "a")]], ["K"], [], []⟩ [("K", Val.vstr "b")]
    (by decide) (by decide) (by decide) (by decide)
  rw [h]
  rfl

/-- C2 counterexample: the merge does not leave unsuperseded master rows
unchanged.  With master `[{Date: int 1, V: 10}]` and batch
`[{Date: "2"}]` the master row's key ("1") does not reappear in the
batch, yet the result holds `{Date: "1" (string), V: 10}` — the lookup's
`astype(str)` coerced the key column — so the original row is no longer
present with its original column values. -/
theorem C2_counterexample :
    process_dataframe_merge
        ⟨["Date", "V"], [[("Date", Val.vint 1), ("V", Val.vint 10)]]⟩
        ⟨["Date"], [[("Date", Val.vstr "2")]]⟩ =
      some (⟨["Date", "V"],
        [[("Date", Val.vstr "1"), ("V", Val.vint 10)],
         [("Date", Val.vstr "2")]]⟩, ["2"], []) ∧
    keyStrings ["Date"] [("Date", Val.vint 1), ("V", Val.vint 10)] ≠
      keyStrings ["Date"] [("Date", Val.vstr "2")] ∧
    ¬ ([("Date", Val.vint 1), ("V", Val.vint 10)] ∈
      [[("Date", Val.vstr "1"), ("V", Val.vint 10)],
       [("Date", Val.vstr "2")]]) := by decide

/-- C2 amended: in a merge with non-empty key columns into a non-empty
master containing all key columns, every master row whose
string-rendered key does not appear in the batch is still present in
the merge result — with its key columns replaced by their string
renderings and all other cells unchanged — ahead of the appended rows
and in its original relative order, modulo only the final sort; a
master row is dropped only when a batch row carries an equal
(string-rendered) key.  With an empty batch the master rows survive
verbatim. -/
theorem C2_amended_frame (master batch : Table) (keyCols : List Col)
    (hk : keyCols ≠ []) (hm : master.rows ≠ [])
    (hmc : keyCols.all (master.cols.contains ·) = true)
    (hbc : keyCols.all (batch.cols.contains ·) = true) :
    (batch.rows ≠ [] → ∃ result app,
      mergeWithKeys keyCols master batch = some result ∧
      result.1.rows = sortOrd (rowLe keyCols)
        ((master.rows.filter
            (fun m => !(keyHit keyCols batch.rows m))).map
          (strRowKeys keyCols) ++ app)) ∧
    (batch.rows = [] → mergeWithKeys keyCols master batch =
      some (⟨master.cols, sortOrd (rowLe keyCols) master.rows⟩,
        [], [])) := by
  have hc : master.cols ≠ [] :=
    cols_ne_of_all_contains keyCols master.cols hk hmc
  have hke : keyCols.isEmpty = false := isEmpty_false_of_ne _ hk
  have hmfe := (frameEmpty_eq_false master.cols master.rows).mpr ⟨hm, hc⟩
  constructor
  · intro hbne
    have hdb : drop_duplicates_keep_last keyCols batch.rows ≠ [] :=
      dedup_ne_nil keyCols batch.rows hbne
    obtain ⟨st2, app, hrun, hrows, h2r, h2c, h2cc⟩ :=
      mergeRows_survivors keyCols hk
        (drop_duplicates_keep_last keyCols batch.rows)
        ⟨master.rows, master.cols, [], []⟩ hdb hm hc hmc
    have hfe2 := (frameEmpty_eq_false st2.cols st2.rows).mpr ⟨h2r, h2c⟩
    refine ⟨(⟨st2.cols, finalSort keyCols st2.cols st2.rows⟩,
      st2.added, st2.updated), app, ?_, ?_⟩
    · unfold mergeWithKeys
      rw [if_neg (fun hcon => hcon.2 hbc)]
      simp only [hke, Bool.false_eq_true, if_false, hrun]
    · simp only
      unfold finalSort
      rw [if_pos ⟨by rw [hfe2]; exact fun h => Bool.noConfusion h,
        by rw [hke]; exact fun h => Bool.noConfusion h⟩]
      rw [hrows]
      refine congrArg _ (congrArg (fun l => l ++ app)
        (congrArg (fun l => l.map (strRowKeys keyCols))
          (filter_congr_mem _ _ _ (fun m _ => ?_))))
      rw [keyHit_dedup]
  · intro hbe
    unfold mergeWithKeys
    rw [if_neg (fun hcon => hcon.2 hbc)]
    simp only [hke, Bool.false_eq_true, if_false, hbe,
      drop_duplicates_keep_last, mergeRows]
    unfold finalSort
    rw [if_pos ⟨by rw [hmfe]; exact fun h => Bool.noConfusion h,
      by rw [hke]; exact fun h => Bool.noConfusion h⟩]

/-- C2 witness: the amended frame property applied to a one-row master
and a one-row batch with a different key. -/
theorem C2_amended_frame_witness :
    ∃ result app,
      mergeWithKeys ["Date"] ⟨["Date"], [[("Date", Val.vstr "1")]]⟩
        ⟨["Date"], [[("Date", Val.vstr "2")]]⟩ = some result ∧
      result.1.rows = sortOrd (rowLe ["Date"])
        ((((⟨["Date"], [[("Date", Val.vstr "1")]]⟩ : Table)).rows.filter
            (fun m => !(keyHit ["Date"]
              ((⟨["Date"], [[("Date", Val.vstr "2")]]⟩ : Table)).rows
              m))).map
          (strRowKeys ["Date"]) ++ app) :=
  (C2_amended_frame ⟨["Date"], [[("Date", Val.vstr "1")]]⟩
    ⟨["Date"], [[("Date", Val.vstr "2")]]⟩ ["Date"]
    (by decide) (by decide) (by decide) (by decide)).1 (by decide)

/-- C3: the merge is not idempotent, although the spec requires it.
First failing input: empty master, batch `[{Date: int 5, Value: 1}]`.
The first merge stores the row with the integer key 5; merging the same
batch into that result replaces it by a row whose key is the string
"5" (the lookup's `astype(str)` coercion), so the second result differs
from the first.  The failure is also observable through the `to_csv` /
`read_csv` round trip: a string key "05" re-reads as the integer 5,
whose rendering "5" no longer matches "05", so a re-run appends a
duplicate row instead of updating. -/
theorem C3_idempotence_failure :
    process_dataframe_merge ⟨[], []⟩ batchC3 =
      some (⟨["Date", "Value"],
        [[("Date", Val.vint 5), ("Value", Val.vint 1)]]⟩, ["5"], []) ∧
    process_dataframe_merge
        ⟨["Date", "Value"],
         [[("Date", Val.vint 5), ("Value", Val.vint 1)]]⟩ batchC3 =
      some (⟨["Date", "Value"],
        [[("Date", Val.vstr "5"), ("Value", Val.vint 1)]]⟩, [], ["5"]) ∧
    (⟨["Date", "Value"],
      [[("Date", Val.vstr "5"), ("Value", Val.vint 1)]]⟩ : Table) ≠
      ⟨["Date", "Value"], [[("Date", Val.vint 5), ("Value", Val.vint 1)]]⟩ ∧
    process_dataframe_merge ⟨[], []⟩ batch05 =
      some (⟨["Date", "Value"],
        [[("Date", Val.vstr "05"), ("Value", Val.vint 1)]]⟩, ["05"], []) ∧
    csv_round_trip
        ⟨["Date", "Value"],
         [[("Date", Val.vstr "05"), ("Value", Val.vint 1)]]⟩ =
      ⟨["Date", "Value"], [[("Date", Val.vint 5), ("Value", Val.vint 1)]]⟩ ∧
    process_dataframe_merge
        ⟨["Date", "Value"],
         [[("Date", Val.vint 5), ("Value", Val.vint 1)]]⟩ batch05 =
      some (⟨["Date", "Value"],
        [[("Date", Val.vstr "05"), ("Value", Val.vint 1)],
         [("Date", Val.vstr "5"), ("Value", Val.vint 1)]]⟩,
        ["05"], []) := by decide

/-- C4 counterexample: under the whole-row-key fallback a batch row
that exactly matches a master row is classified as updated, not added,
so "every batch row is classified as added" fails. -/
theorem C4_counterexample :
    determine_key_columns ["X"] = ["X"] ∧
    process_dataframe_merge ⟨["X"], [[("X", Val.vstr "x")]]⟩
        ⟨["X"], [[("X", Val.vstr "x")]]⟩ =
      some (⟨["X"], [[("X", Val.vstr "x")]]⟩, [], ["x"]) := by decide

theorem all_contains_self (l : List Col) : l.all (l.contains ·) = true := by
  rw [List.all_eq_true]
  intro c hc
  exact List.elem_iff.mpr hc

/-- C4 amended: when the batch columns contain neither the
`Stn_Name`+`Stn_DC_Date` pair nor `Date`, the key is the full column
list (whole-row identity); every batch row whose full string-rendered
row differs from every master row and from every other batch row is
classified as added and none as updated.  (A batch row that agrees with
a master row on all columns is classified as updated instead, as the
counterexample shows.) -/
theorem C4_amended_key_fallback (master batch : Table)
    (h1 : ¬ (batch.cols.contains "Stn_Name" = true ∧
      batch.cols.contains "Stn_DC_Date" = true))
    (h2 : batch.cols.contains "Date" = false)
    (hbc : batch.cols ≠ [])
    (hnew : ∀ r ∈ batch.rows, ∀ m ∈ master.rows,
      keyStrings batch.cols r ≠ keyStrings batch.cols m)
    (hpair : batch.rows.Pairwise
      (fun a b => keyStrings batch.cols a ≠ keyStrings batch.cols b)) :
    determine_key_columns batch.cols = batch.cols ∧
    ∃ result,
      process_dataframe_merge master batch = some result ∧
      result.2.1 = batch.rows.map
        (fun r => String.intercalate "_" (keyStrings batch.cols r)) ∧
      result.2.2 = [] := by
  have hdk : determine_key_columns batch.cols = batch.cols := by
    unfold determine_key_columns
    rw [if_neg h1, if_neg (fun h => by rw [h2] at h; cases h)]
  have hke : batch.cols.isEmpty = false := isEmpty_false_of_ne _ hbc
  have hdedup : drop_duplicates_keep_last batch.cols batch.rows =
      batch.rows :=
    dedup_eq_self_of_distinct batch.cols batch.rows
      (hpair.imp (fun hne hkv =>
        hne (keyStrings_of_keyVals_eq batch.cols _ _ hkv)))
  obtain ⟨st2, hrun, hadd, hupd, _⟩ :=
    mergeRows_all_added batch.cols hbc batch.rows
      ⟨master.rows, master.cols, [], []⟩ hnew hpair
  refine ⟨hdk, (⟨st2.cols, finalSort batch.cols st2.cols st2.rows⟩,
    st2.added, st2.updated), ?_, ?_, ?_⟩
  · unfold process_dataframe_merge
    rw [hdk]
    unfold mergeWithKeys
    rw [if_neg (fun hcon => hcon.2 (all_contains_self batch.cols))]
    simp only [hke, Bool.false_eq_true, if_false, hdedup, hrun]
  · rw [hadd]
    simp only [List.nil_append]
  · exact hupd

/-- C4 witness: the amended fallback property applied to a one-row
master whose rendering collides with no batch row and a two-row batch
with distinct rendered rows, so the no-collision hypotheses are
exercised non-vacuously. -/
theorem C4_amended_witness :
    determine_key_columns
        ((⟨["X"], [[("X", Val.vstr "a")], [("X", Val.vstr "b")]]⟩ :
          Table)).cols = ["X"] ∧
    ∃ result,
      process_dataframe_merge ⟨["X"], [[("X", Val.vstr "z")]]⟩
        ⟨["X"], [[("X", Val.vstr "a")], [("X", Val.vstr "b")]]⟩ =
        some result ∧
      result.2.1 =
        ((⟨["X"], [[("X", Val.vstr "a")], [("X", Val.vstr "b")]]⟩ :
          Table)).rows.map
          (fun r => String.intercalate "_" (keyStrings ["X"] r)) ∧
      result.2.2 = [] :=
  C4_amended_key_fallback ⟨["X"], [[("X", Val.vstr "z")]]⟩
    ⟨["X"], [[("X", Val.vstr "a")], [("X", Val.vstr "b")]]⟩
    (by decide) (by decide) (by decide) (by decide) (by decide)

/-- C5 counterexample: key values are not compared as trimmed strings.
The master value " A" and the batch value "A" have equal trimmed
renderings, yet the lookup treats them as different keys: the batch row
is classified as added and both rows remain in the result. -/
theorem C5_counterexample :
    pyStrip (Val.vstr " A").render = pyStrip (Val.vstr "A").render ∧
    mergeWithKeys ["K"] ⟨["K"], [[("K", Val.vstr " A")]]⟩
        ⟨["K"], [[("K", Val.vstr "A")]]⟩ =
      some (⟨["K"], [[("K", Val.vstr " A")], [("K", Val.vstr "A")]]⟩,
        ["A"], []) := by decide

/-- C5 amended: the lookup compares key-column values as untrimmed
`str()` renderings: a (coerced) batch row matches a (coerced) master
row exactly when the renderings agree on every key column, regardless
of source type — e.g. the integer 5 matches the string "5" and is
classified as an update. -/
theorem C5_amended_untrimmed_compare :
    (∀ (keyCols : List Col) (nr m : Row),
      rowMatches keyCols (strRowKeys keyCols nr) (strRowKeys keyCols m) =
        decide (keyStrings keyCols m = keyStrings keyCols nr)) ∧
    mergeWithKeys ["K"] ⟨["K"], [[("K", Val.vint 5)]]⟩
        ⟨["K"], [[("K", Val.vstr "5")]]⟩ =
      some (⟨["K"], [[("K", Val.vstr "5")]]⟩, [], ["5"]) :=
  ⟨rowMatches_strKeys, by decide⟩

/-- Contract that `DataFrame.sort_values` guarantees irrespective of
its sort kind: the output is a permutation of the input, ascending in
the key columns.  With a single-column `by` list pandas dispatches to
`nargsort` with the default non-stable `kind="quicksort"`, so nothing
beyond this contract — in particular no stability — is guaranteed;
with two or more columns pandas uses stable `lexsort`. -/
def sorted_permutation_of (keyCols : List Col) (out rows : List Row) :
    Prop :=
  List.Perm out rows ∧
    out.Pairwise (fun a b => rowLe keyCols a b = true)

/-- C6 counterexample: with the single key column `Date` (the key list
dsm-data.py line 649 produces), two distinct outputs both satisfy the
quicksort sort contract on a two-row input whose rows have equal keys,
and the second reverses the prior relative order of the equal-key
rows.  So "equal keys keep their prior relative order" — and with it a
deterministic output ordering — is not a property the code's
single-column `sort_values` guarantees. -/
theorem C6_counterexample :
    sorted_permutation_of ["Date"]
      [[("Date", Val.vstr "1"), ("V", Val.vstr "a")],
       [("Date", Val.vstr "1"), ("V", Val.vstr "b")]]
      [[("Date", Val.vstr "1"), ("V", Val.vstr "a")],
       [("Date", Val.vstr "1"), ("V", Val.vstr "b")]] ∧
    sorted_permutation_of ["Date"]
      [[("Date", Val.vstr "1"), ("V", Val.vstr "b")],
       [("Date", Val.vstr "1"), ("V", Val.vstr "a")]]
      [[("Date", Val.vstr "1"), ("V", Val.vstr "a")],
       [("Date", Val.vstr "1"), ("V", Val.vstr "b")]] ∧
    keyVals ["Date"] [("Date", Val.vstr "1"), ("V", Val.vstr "a")] =
      keyVals ["Date"] [("Date", Val.vstr "1"), ("V", Val.vstr "b")] ∧
    [[("Date", Val.vstr "1"), ("V", Val.vstr "b")],
     [("Date", Val.vstr "1"), ("V", Val.vstr "a")]] ≠
      [[("Date", Val.vstr "1"), ("V", Val.vstr "a")],
       [("Date", Val.vstr "1"), ("V", Val.vstr "b")]] :=
  ⟨⟨List.Perm.refl _, by decide⟩,
   ⟨List.Perm.swap [("Date", Val.vstr "1"), ("V", Val.vstr "a")]
      [("Date", Val.vstr "1"), ("V", Val.vstr "b")] [], by decide⟩,
   by decide, by decide⟩

/-- C6 amended: when the key-column list is non-empty the final master
table is a permutation of the processed rows, sorted ascending by the
key columns (the contract every `sort_values` kind guarantees); with
two or more key columns pandas' stable lexsort additionally keeps
equal-key rows in their prior relative order (each key value's
subsequence is unchanged); with a single key column the default
quicksort guarantees only the sorted permutation, so equal-key order
is not determined; with an empty key-column list append order is
preserved.  The model realizes one admissible outcome via a
deterministic stable sort; the hypothesis excludes the degenerate
zero-column frame with rows, which pandas cannot produce. -/
theorem C6_amended_sort (keyCols cols : List Col) (rows : List Row)
    (hdeg : cols = [] → rows = []) :
    (keyCols ≠ [] →
      sorted_permutation_of keyCols (finalSort keyCols cols rows)
        rows) ∧
    (2 ≤ keyCols.length →
      ∀ ks : List Val,
        (finalSort keyCols cols rows).filter
            (fun r => decide (keyVals keyCols r = ks)) =
          rows.filter (fun r => decide (keyVals keyCols r = ks))) ∧
    (keyCols = [] → finalSort keyCols cols rows = rows) := by
  have hmain : keyCols ≠ [] →
      (finalSort keyCols cols rows = rows ∧ rows = []) ∨
        finalSort keyCols cols rows = sortOrd (rowLe keyCols) rows := by
    intro hk
    by_cases hfe : frameEmpty cols rows = true
    · have hrows : rows = [] := by
        unfold frameEmpty at hfe
        rcases Bool.or_eq_true_iff.mp hfe with h | h
        · exact List.isEmpty_iff.mp h
        · exact hdeg (List.isEmpty_iff.mp h)
      refine Or.inl ⟨?_, hrows⟩
      unfold finalSort
      rw [if_neg (fun hcon => hcon.1 hfe)]
    · have hf : frameEmpty cols rows = false := Bool.eq_false_iff.mpr hfe
      refine Or.inr ?_
      unfold finalSort
      rw [if_pos ⟨by rw [hf]; exact fun h => Bool.noConfusion h,
        by rw [isEmpty_false_of_ne _ hk];
           exact fun h => Bool.noConfusion h⟩]
  refine ⟨?_, ?_, ?_⟩
  · intro hk
    rcases hmain hk with ⟨hres, hrows⟩ | hres
    · rw [hres, hrows]
      exact ⟨List.Perm.refl _, List.Pairwise.nil⟩
    · rw [hres]
      exact ⟨sortOrd_perm _ rows,
        sortOrd_pairwise _ (rowLe_total keyCols) (rowLe_trans keyCols)
          rows⟩
  · intro hlen ks
    have hk : keyCols ≠ [] := by
      intro h0
      rw [h0] at hlen
      exact absurd hlen (by decide)
    rcases hmain hk with ⟨hres, hrows⟩ | hres
    · rw [hres]
    · rw [hres]
      exact filter_sortOrd (rowLe keyCols) (keyVals keyCols)
        (rowLe_refl_of_keyVals keyCols) (rowLe_total keyCols)
        (rowLe_trans keyCols) ks rows
  · intro hk0
    unfold finalSort
    rw [if_neg (fun hcon => hcon.2 (by rw [hk0]; rfl))]

/-- C6 witness: the amended sort property applied to a concrete
two-row table with out-of-order keys, and the stability clause to a
two-column key. -/
theorem C6_amended_sort_witness :
    sorted_permutation_of ["K"]
      (finalSort ["K"] ["K"]
        [[("K", Val.vstr "b")], [("K", Val.vstr "a")]])
      [[("K", Val.vstr "b")], [("K", Val.vstr "a")]] ∧
    (finalSort ["A", "B"] ["A", "B"]
        [[("A", Val.vstr "x"), ("B", Val.vstr "y")]]).filter
        (fun r => decide (keyVals ["A", "B"] r =
          [Val.vstr "x", Val.vstr "y"])) =
      [[("A", Val.vstr "x"), ("B", Val.vstr "y")]].filter
        (fun r => decide (keyVals ["A", "B"] r =
          [Val.vstr "x", Val.vstr "y"])) :=
  ⟨(C6_amended_sort ["K"] ["K"]
      [[("K", Val.vstr "b")], [("K", Val.vstr "a")]]
      (fun h => absurd h (by decide))).1 (by decide),
   (C6_amended_sort ["A", "B"] ["A", "B"]
      [[("A", Val.vstr "x"), ("B", Val.vstr "y")]]
      (fun h => absurd h (by decide))).2.1 (by decide)
      [Val.vstr "x", Val.vstr "y"]⟩

/-- C7: the gating decision processes a resource exactly when the
ledger has no recorded hash for its key or the recorded hash differs
from the hash of the content: `should_process` is true iff no prior
record exists or the recorded digest differs; after recording, a
second call with identical bytes returns false, and a call with bytes
whose digest differs returns true (the digest is modelled as an
arbitrary injective function, since hash collisions of the external
md5 primitive are out of scope).  The ERLDC `check_for_changes`
behaves the same way over the local copy's digest: true for an
unrecorded file, and for a recorded one false exactly when the local
digest equals the recorded one. -/
theorem C7_change_gating (D : Type) [DecidableEq D]
    (md5 : List Nat → D) (hinj : Function.Injective md5) :
    (∀ (t : Ledger D) (k : String) (h : D),
      should_process t k h = true ↔
        previous_hash t k = none ∨
          ∃ h0, previous_hash t k = some h0 ∧ h0 ≠ h) ∧
    (∀ (t : Ledger D) (k stamp url dtype : String) (b : List Nat),
      should_process (record_processed t k ⟨md5 b, stamp, url, dtype⟩) k
        (md5 b) = false) ∧
    (∀ (t : Ledger D) (k stamp url dtype : String) (b b2 : List Nat),
      b2 ≠ b →
      should_process (record_processed t k ⟨md5 b, stamp, url, dtype⟩) k
        (md5 b2) = true) ∧
    (∀ (t : Ledger D) (filename : String) (lh : Option D),
      assocFind t filename = none →
      check_for_changes t filename lh = true) ∧
    (∀ (t : Ledger D) (filename : String) (e : TrackEntry D) (h : D),
      assocFind t filename = some e →
      check_for_changes t filename (some h) = decide (¬ e.hash = h) ∧
      check_for_changes t filename none = true) := by
  refine ⟨?_, ?_, ?_, ?_, ?_⟩
  · intro t k h
    cases hp : previous_hash t k with
    | none => simp [should_process, hp]
    | some h0 => simp [should_process, hp]
  · intro t k stamp url dtype b
    have hprev : previous_hash
        (record_processed t k ⟨md5 b, stamp, url, dtype⟩) k =
        some (md5 b) := by
      unfold previous_hash record_processed
      rw [assocFind_set_self]
      rfl
    simp [should_process, hprev]
  · intro t k stamp url dtype b b2 hne
    have hprev : previous_hash
        (record_processed t k ⟨md5 b, stamp, url, dtype⟩) k =
        some (md5 b) := by
      unfold previous_hash record_processed
      rw [assocFind_set_self]
      rfl
    simp only [should_process, hprev, Option.some.injEq,
      decide_eq_true_eq]
    intro he
    exact hne (hinj he).symm
  · intro t filename lh h
    unfold check_for_changes
    rw [h]
  · intro t filename e h hf
    unfold check_for_changes
    rw [hf]
    exact ⟨rfl, rfl⟩

/-- C7 witness: the gating applied with the identity digest over a
concrete ledger: a second call with identical bytes is false, a call
with different bytes is true, and an unseen resource is true. -/
theorem C7_change_gating_witness :
    should_process (record_processed ([] : Ledger (List Nat)) "R1"
      ⟨[1, 2], "t", "u", "d"⟩) "R1" [1, 2] = false ∧
    should_process (record_processed ([] : Ledger (List Nat)) "R1"
      ⟨[1, 2], "t", "u", "d"⟩) "R1" [1, 3] = true ∧
    should_process ([] : Ledger (List Nat)) "R1" [1, 2] = true := by
  have h := C7_change_gating (List Nat) id (fun a b hab => hab)
  refine ⟨h.2.1 [] "R1" "t" "u" "d" [1, 2],
    h.2.2.1 [] "R1" "t" "u" "d" [1, 2] [1, 3] (by decide), ?_⟩
  rw [h.1 [] "R1" [1, 2]]
  exact Or.inl rfl

/-- C8: loading the tracking ledger never aborts the run: the loader is
a total function, and both a missing ledger file and an
unreadable/malformed one (the `try`/`except` path of
`load_file_tracking`) yield the empty map, so every resource counts as
unseen; a readable ledger loads as its parsed content. -/
theorem C8_ledger_cold_start :
    (∀ (D : Type),
      load_file_tracking (FileState.missing : FileState (Ledger D)) =
        []) ∧
    (∀ (D : Type),
      load_file_tracking (FileState.corrupt : FileState (Ledger D)) =
        []) ∧
    (∀ (D : Type) (m : Ledger D),
      load_file_tracking (FileState.readable m) = m) :=
  ⟨fun _ => rfl, fun _ => rfl, fun _ _ => rfl⟩

/-- C9 counterexample: a blank (non-null) column name is not replaced
by the positional placeholder: `pd.notna(" ")` holds, so the cleaner
strips it to the empty string instead of producing `Column_0`. -/
theorem C9_counterexample :
    clean_column_names [some (Val.vstr " ")] = [""] ∧
    clean_column_names [some (Val.vstr " ")] ≠ ["Column_0"] := by decide

/-- C9 amended: the cleaner keeps one name per column; a present
(non-null) header cell is rendered with `str()` and stripped of
surrounding whitespace — blank names therefore become empty strings —
and only a missing (`NaN`) name is replaced by the positional
placeholder `Column_<index>`. -/
theorem C9_amended_column_names (cols : List (Option Val)) :
    (clean_column_names cols).length = cols.length ∧
    ∀ (i : Nat) (h1 : i < (clean_column_names cols).length)
      (h2 : i < cols.length),
      (clean_column_names cols).get ⟨i, h1⟩ =
        match cols.get ⟨i, h2⟩ with
        | some v => pyStrip (v.render)
        | none => "Column_" ++ toString i := by
  constructor
  · unfold clean_column_names
    rw [List.length_map, List.enum_length]
  · intro i h1 h2
    unfold clean_column_names
    simp only [List.get_eq_getElem, List.getElem_map, List.getElem_enum]

/-- C9 witness: the amended characterization applied to a two-column
header with a padded name and a missing name. -/
theorem C9_amended_witness :
    (clean_column_names [some (Val.vstr " a "), none]).get
      ⟨1, by decide⟩ = "Column_1" := by
  have h := (C9_amended_column_names [some (Val.vstr " a "), none]).2 1
    (by decide) (by decide)
  rw [h]
  rfl

/-- C10: the ERLDC per-resource ledger update is atomic with respect to
the processing steps: the ledger returned by
`download_and_process_file` differs from the input ledger only when the
change check, download, excel-type check, sheet processing, saving and
hashing all succeeded — in which case it is exactly the input with the
new entry recorded — and any failing step leaves the ledger exactly as
it was, so the resource is re-attempted on the next run. -/
theorem C10_ledger_atomicity (D : Type) [DecidableEq D]
    (t : Ledger D) (filename stamp url dtype : String)
    (o : FetchOutcome D) :
    ((download_and_process_file t filename stamp url dtype o).2 ≠ t →
      check_for_changes t filename o.localHash = true ∧
      o.downloadOk = true ∧ o.isExcel = true ∧ o.processedOk = true ∧
      o.saveOk = true ∧
      ∃ h, o.newHash = some h ∧
        (download_and_process_file t filename stamp url dtype o).2 =
          record_processed t filename ⟨h, stamp, url, dtype⟩ ∧
        (download_and_process_file t filename stamp url dtype o).1 =
          true) ∧
    ((o.downloadOk = false ∨ o.isExcel = false ∨ o.processedOk = false ∨
        o.saveOk = false ∨ o.newHash = none) →
      (download_and_process_file t filename stamp url dtype o).2 =
        t) := by
  rcases o with ⟨lh, dl, ex, pr, sv, nh⟩
  unfold download_and_process_file
  by_cases hch : check_for_changes t filename lh = false
  · rw [if_pos hch]
    exact ⟨fun hne => absurd rfl hne, fun _ => rfl⟩
  · rw [if_neg hch]
    have hch2 : check_for_changes t filename lh = true := by
      cases hv : check_for_changes t filename lh
      · exact absurd hv hch
      · rfl
    cases dl
    · rw [if_pos rfl]
      exact ⟨fun hne => absurd rfl hne, fun _ => rfl⟩
    · rw [if_neg (fun h => Bool.noConfusion h)]
      cases ex
      · rw [if_neg (fun h => Bool.noConfusion h)]
        exact ⟨fun hne => absurd rfl hne, fun _ => rfl⟩
      · rw [if_pos rfl]
        cases pr
        · rw [if_neg (fun h => Bool.noConfusion h)]
          exact ⟨fun hne => absurd rfl hne, fun _ => rfl⟩
        · rw [if_pos rfl]
          cases sv
          · rw [if_neg (fun h => Bool.noConfusion h)]
            exact ⟨fun hne => absurd rfl hne, fun _ => rfl⟩
          · rw [if_pos rfl]
            cases nh with
            | none =>
              exact ⟨fun hne => absurd rfl hne, fun _ => rfl⟩
            | some hsh =>
              constructor
              · intro _
                exact ⟨hch2, rfl, rfl, rfl, rfl, hsh, rfl, rfl, rfl⟩
              · intro hfail
                rcases hfail with h1 | h1 | h1 | h1 | h1
                · exact Bool.noConfusion h1
                · exact Bool.noConfusion h1
                · exact Bool.noConfusion h1
                · exact Bool.noConfusion h1
                · exact Option.noConfusion h1

/-- C10 witness: a failing save step leaves a concrete empty ledger
untouched. -/
theorem C10_ledger_atomicity_witness :
    (download_and_process_file ([] : Ledger Nat) "f" "s" "u" "d"
      ⟨none, true, true, true, false, some 7⟩).2 = [] :=
  (C10_ledger_atomicity Nat [] "f" "s" "u" "d"
    ⟨none, true, true, true, false, some 7⟩).2
    (Or.inr (Or.inr (Or.inr (Or.inl rfl))))

end DSM
